import Mathlib

/-!
Verification of the command-execution / history subsystem of the
`plasticity` editor (`src/editor/GeometryDatabase.ts`,
`src/command/CommandExecutor.ts` and its test
`__tests__/command/CommandExecutor.test.ts`, here `src/unnamed/part_000`).

The geometry database is embedded shallowly: JavaScript `Map`s become
association lists with JS `Map` semantics (`mget`/`mset`/`mdel`), numbers
become `Int` (ids can be negative for temporaries), and the non-null
assertions (`get(x)!`) of fallible paths become `Option` results.

The `CommandExecutor` itself is not among the provided sources; only its
test file is.  It is therefore modelled from the specification (§4.2–§4.3)
with the behaviour fixed by its test file taken as authoritative wherever
the two disagree (in particular, a command superseded while still queued
stays in state `None`, as the test asserts).
-/

/-- JS `Map.get`: value stored under key `k`, if any. -/
def mget {α β : Type} [DecidableEq α] : List (α × β) → α → Option β
  | [], _ => none
  | (k', v) :: rest, k => if k' = k then some v else mget rest k

/-- JS `Map.set`: overwrite the entry for `k` in place, or append a new one. -/
def mset {α β : Type} [DecidableEq α] : List (α × β) → α → β → List (α × β)
  | [], k, v => [(k, v)]
  | (k', v') :: rest, k, v =>
    if k' = k then (k, v) :: rest else (k', v') :: mset rest k v

/-- JS `Map.delete`: remove the entry (entries) stored under `k`. -/
def mdel {α β : Type} [DecidableEq α] : List (α × β) → α → List (α × β)
  | [], _ => []
  | (k', v') :: rest, k =>
    if k' = k then mdel rest k else (k', v') :: mdel rest k

/-- Well-formedness of an association list as a JS `Map`: keys are unique. -/
def wfm {α β : Type} (m : List (α × β)) : Prop := (m.map Prod.fst).Nodup

/-- JS `Set.add`: insert if not already present. -/
def sadd {α : Type} [DecidableEq α] (s : List α) (x : α) : List α :=
  if x ∈ s then s else x :: s

/-- JS `Set.delete`: remove an element. -/
def sdel {α : Type} [DecidableEq α] (s : List α) (x : α) : List α :=
  s.filter (fun y => y ≠ x)

namespace CmdExec

/-- Command lifecycle states, from spec §4.2 (the source stores them as the
strings `'None' | 'Started' | 'Finished' | 'Cancelled' | 'Interrupted'`).
The executor's tests observe a running command still in `none_` (test
`basic successful execution` asserts `'None'` while the effect is in
flight), so the modelled transitions never pass through `started`; the
constructor is kept because the spec lists it. -/
inductive CState where
  | none_ | started | finished | cancelled | interrupted
deriving DecidableEq, Repr

/-- External events driving the single-threaded executor: `enq c` is a call
to `CommandExecutor.enqueue` with command `c`; `rel c ok` is the settling of
command `c`'s effect routine (the test's `Delay.resolve`/`Delay.reject`),
with `ok = false` meaning the effect rejected. -/
inductive Event where
  | enq (c : Nat)
  | rel (c : Nat) (ok : Bool)
deriving DecidableEq, Repr

/-- Pointwise update of a function map. -/
def upd {β : Type} (f : Nat → β) (a : Nat) (v : β) : Nat → β :=
  fun x => if x = a then v else f x

/-- Modelled from the spec: the observable state of the Command Executor
(spec §4.3) together with the per-command bookkeeping the claims mention.
`src/command/CommandExecutor.ts` is not among the provided sources; the
model follows §4.2–§4.3 and the behaviour pinned down by its test file
(`src/unnamed/part_000`).  `active` is the command currently executing,
`next` the single pending slot a newer `enqueue` overwrites
(last-writer-wins), `released` records how each command's effect routine
settles, `resolved` whether the promise returned by `enqueue` has resolved,
and `history` the ids of commands for which a History entry was appended. -/
structure MState where
  states : Nat → CState
  active : Option Nat
  next : Option Nat
  released : Nat → Option Bool
  resolved : Nat → Bool
  history : List Nat

/-- Modelled from the spec: `Command.interrupt` — a newer command preempts
this one; `None`/`Started` flip to `Interrupted` (spec §4.2), terminal
states stay.  Reaching the terminal state resolves the enqueue promise. -/
def interruptCmd (s : MState) (a : Nat) : MState :=
  if s.states a = CState.none_ ∨ s.states a = CState.started then
    { s with states := upd s.states a CState.interrupted,
             resolved := upd s.resolved a true }
  else s

/-- Modelled from the spec: settling of a command's effect routine
(spec §4.3 step 5): success from a non-superseded command gives `Finished`
plus one History entry, an error gives `Cancelled`, and a command already
`Interrupted` keeps that state with no History entry.  In every case the
promise returned by `enqueue` resolves. -/
def settleCmd (s : MState) (c : Nat) (ok : Bool) : MState :=
  if s.states c = CState.none_ ∨ s.states c = CState.started then
    if ok then
      { s with states := upd s.states c CState.finished,
               resolved := upd s.resolved c true,
               history := s.history ++ [c] }
    else
      { s with states := upd s.states c CState.cancelled,
               resolved := upd s.resolved c true }
  else
    { s with resolved := upd s.resolved c true }

/-- Modelled from the spec: the dequeue step — move the pending command (if
any) into the active slot; if its effect has already settled, settle it
immediately (the serial queue runs commands strictly one at a time). -/
def startNext (s : MState) : MState :=
  match s.next with
  | none => s
  | some d =>
    let s1 := { s with active := some d, next := none }
    match s1.released d with
    | none => s1
    | some okd =>
      let s2 := settleCmd s1 d okd
      { s2 with active := none }

/-- Modelled from the spec: one event of the single-threaded executor.
`enqueue` (spec §4.3) writes the new command into the pending slot —
resolving the promise of any command it displaces, which then never starts
and stays `None` (test `enqueue cancels active commands and executes the
most recent`) — and interrupts the active command if there is one,
otherwise dequeues immediately.  A release settles the active command and
then dequeues. -/
def step (s : MState) : Event → MState
  | .enq j =>
    let s1 :=
      match s.next with
      | some d => { s with resolved := upd s.resolved d true, next := some j }
      | none => { s with next := some j }
    match s1.active with
    | some a => interruptCmd s1 a
    | none => startNext s1
  | .rel c ok =>
    let s1 := { s with released := upd s.released c (some ok) }
    match s1.active with
    | some a =>
      if a = c then
        let s2 := settleCmd s1 c ok
        startNext { s2 with active := none }
      else s1
    | none => s1

/-- The executor before any command is enqueued. -/
def initState : MState :=
  { states := fun _ => CState.none_, active := none, next := none,
    released := fun _ => none, resolved := fun _ => false, history := [] }

/-- Run the executor over a sequence of events. -/
def run (es : List Event) : MState := es.foldl step initState

/-- A command state is terminal (`Finished`, `Cancelled` or `Interrupted`). -/
def isTerminal : CState → Bool
  | .finished => true
  | .cancelled => true
  | .interrupted => true
  | _ => false

/-- An `enqueue` event is admissible when its command is genuinely new:
still in state `None` and not the currently active command (each command
object is enqueued at most once in the source's usage). -/
def eventOk (s : MState) : Event → Bool
  | .enq j => decide (s.states j = CState.none_ ∧ s.active ≠ some j)
  | .rel _ _ => true

/-- Well-formed event sequences from a given state: every `enqueue` is of a
fresh command. -/
def wfEvents (s : MState) : List Event → Bool
  | [] => true
  | e :: rest => eventOk s e && wfEvents (step s e) rest

/-- The event trace of the test `enqueue cancels active commands and
executes the most recent`: three commands enqueued back to back, then
command 1's effect rejects and commands 2 and 3's effects resolve. -/
def sEvents : List Event :=
  [.enq 1, .enq 2, .enq 3, .rel 1 false, .rel 2 true, .rel 3 true]

end CmdExec

namespace Geo

/-- The source of a mutation (`src/editor/DatabaseLike.ts`): `'user'` or
`'automatic'`. -/
inductive Agent where
  | user | automatic
deriving DecidableEq, Repr

/-- The abstract payload of `insertItem`: the `c3d.Item` model (an opaque
token here) together with the topology and control-point records that
building its view contributes to `topologyModel` / `controlPointModel`
(`builder.build(name, this.topologyModel, this.controlPointModel)` in
`GeometryDatabase.insertItem`); the geometric meshing itself is outside the
embedding. -/
structure ItemData where
  model : Nat
  topo : List (String × Nat)
  cps : List (String × Nat)
deriving DecidableEq, Repr

/-- The tracked state of `GeometryDatabase`
(`src/src/editor/GeometryDatabase.ts`, lines 29–49): the six versioned
maps/sets `saveToMemento` snapshots, the two scenes for temporary and
phantom views (kept as lists of their negative ids), and the id counters. -/
structure GeometryDatabase where
  geometryModel : List (Int × Nat)
  version2name : List (Int × Int)
  name2version : List (Int × Int)
  automatics : List Int
  topologyModel : List (String × Nat)
  controlPointModel : List (String × Nat)
  temporaryObjects : List Int
  phantomObjects : List Int
  positiveCounter : Int
  negativeCounter : Int
deriving DecidableEq, Repr

/-- A fresh database: empty maps, `positiveCounter = 1`,
`negativeCounter = -1`. -/
def dbInit : GeometryDatabase :=
  { geometryModel := [], version2name := [], name2version := [],
    automatics := [], topologyModel := [], controlPointModel := [],
    temporaryObjects := [], phantomObjects := [],
    positiveCounter := 1, negativeCounter := -1 }

/-- `GeometryDatabase.insertItem` (lines 93–107): assign the id — the next
counter value when no explicit `name` is supplied (`name =
this.positiveCounter++`), otherwise the supplied name with the counter
bumped past it (`Math.max(positiveCounter, name + 1)`) — build the view
(recording its topology and control-point entries), store the model under
the id, and track `'automatic'` items.  Returns the new view's
`simpleName` and the new state. -/
def insertItem (st : GeometryDatabase) (item : ItemData) (agent : Agent)
    (name : Option Int) : Int × GeometryDatabase :=
  let n := match name with | none => st.positiveCounter | some k => k
  let pc := match name with
    | none => st.positiveCounter + 1
    | some k => max st.positiveCounter (k + 1)
  (n, { st with
        positiveCounter := pc,
        topologyModel := item.topo.foldl (fun m p => mset m p.1 p.2) st.topologyModel,
        controlPointModel := item.cps.foldl (fun m p => mset m p.1 p.2) st.controlPointModel,
        geometryModel := mset st.geometryModel n item.model,
        automatics := if agent = Agent.automatic then sadd st.automatics n
                      else st.automatics })

/-- `GeometryDatabase._removeItem` (lines 171–180): drop the item from
`geometryModel` and `automatics` and delete the view's topology and
control-point records (`removeTopologyItems` / `removeControlPoints`,
parameterised here by the key lists those traversals delete). -/
def removeItemRaw (st : GeometryDatabase) (viewId : Int)
    (topoKeys cpKeys : List String) : GeometryDatabase :=
  { st with
    geometryModel := mdel st.geometryModel viewId,
    topologyModel := topoKeys.foldl (fun m k => mdel m k) st.topologyModel,
    controlPointModel := cpKeys.foldl (fun m k => mdel m k) st.controlPointModel,
    automatics := sdel st.automatics viewId }

/-- `GeometryDatabase.addItem` (lines 57–64): insert the item (queued on
the serial executor) and record the identity pair in both name indices
(`version2name.set(n, n)`; `name2version.set(n, n)`). -/
def addItem (st : GeometryDatabase) (item : ItemData) (agent : Agent)
    (name : Option Int) : Int × GeometryDatabase :=
  let (n, st1) := insertItem st item agent name
  (n, { st1 with version2name := mset st1.version2name n n,
                 name2version := mset st1.name2version n n })

/-- `GeometryDatabase.replaceItem` (lines 70–80): insert the replacement
under a fresh id, remove the old item, and re-point the stable name — read
with a non-null assertion (`version2name.get(from.simpleName)!`, `none`
here when it is absent) — at the new version id. -/
def replaceItem (st : GeometryDatabase) (fromId : Int)
    (fromTopoKeys fromCpKeys : List String) (item : ItemData) :
    Option (Int × GeometryDatabase) :=
  let (toId, st1) := insertItem st item Agent.user none
  let st2 := removeItemRaw st1 fromId fromTopoKeys fromCpKeys
  match mget st2.version2name fromId with
  | none => none
  | some name =>
    some (toId,
      { st2 with
        version2name := mset (mdel st2.version2name fromId) toId name,
        name2version := mset st2.name2version name toId })

/-- `GeometryDatabase.removeItem` (lines 82–91): remove the item and drop
both index entries, reading the stable name with a non-null assertion
(`version2name.get(view.simpleName)!`). -/
def removeItem (st : GeometryDatabase) (viewId : Int)
    (topoKeys cpKeys : List String) : Option GeometryDatabase :=
  let st1 := removeItemRaw st viewId topoKeys cpKeys
  match mget st1.version2name viewId with
  | none => none
  | some old =>
    some { st1 with
           version2name := mdel st1.version2name viewId,
           name2version := mdel st1.name2version old }

/-- `GeometryDatabase.addTemporaryItem` (lines 129–164): assign the next
negative id (`this.negativeCounter--`) and add the view to the temporary
(or, for `addPhantom`, phantom) scene; the name indices are untouched. -/
def addTemporaryItem (st : GeometryDatabase) (intoPhantoms : Bool) :
    Int × GeometryDatabase :=
  let tempId := st.negativeCounter
  (tempId,
    if intoPhantoms then
      { st with negativeCounter := st.negativeCounter - 1,
                phantomObjects := tempId :: st.phantomObjects }
    else
      { st with negativeCounter := st.negativeCounter - 1,
                temporaryObjects := tempId :: st.temporaryObjects })

/-- `GeometryDatabase.addPhantom` (lines 117–119): a temporary item added
to the phantom scene. -/
def addPhantom (st : GeometryDatabase) : Int × GeometryDatabase :=
  addTemporaryItem st true

/-- `GeometryDatabase.lookupItemById` (lines 182–186): return the stored
record, or fail fast (`throw new Error(...)`) when the id is absent. -/
def lookupItemById (st : GeometryDatabase) (id : Int) : Except String Nat :=
  match mget st.geometryModel id with
  | none => Except.error ("invalid precondition: object " ++ toString id
      ++ " missing from geometry model")
  | some r => Except.ok r

/-- `GeometryDatabase.lookupTopologyItemById` (lines 200–204). -/
def lookupTopologyItemById (st : GeometryDatabase) (id : String) :
    Except String Nat :=
  match mget st.topologyModel id with
  | none => Except.error ("invalid precondition: object " ++ id
      ++ " missing from topology model")
  | some r => Except.ok r

/-- `GeometryDatabase.lookupControlPointById` (lines 381–385). -/
def lookupControlPointById (st : GeometryDatabase) (id : String) :
    Except String Nat :=
  match mget st.controlPointModel id with
  | none => Except.error ("invalid precondition: object " ++ id
      ++ " missing from control point model")
  | some r => Except.ok r

/-- `GeometryMemento` (`src/editor/History.ts`, as constructed by
`saveToMemento`): the six tracked maps/sets. -/
structure GeometryMemento where
  geometryModel : List (Int × Nat)
  version2name : List (Int × Int)
  name2version : List (Int × Int)
  topologyModel : List (String × Nat)
  controlPointModel : List (String × Nat)
  automatics : List Int
deriving DecidableEq, Repr

/-- `GeometryDatabase.saveToMemento` (lines 417–425): snapshot copies
(`new Map(...)` / `new Set(...)`) of the six tracked maps. -/
def saveToMemento (st : GeometryDatabase) : GeometryMemento :=
  { geometryModel := st.geometryModel,
    version2name := st.version2name,
    name2version := st.name2version,
    topologyModel := st.topologyModel,
    controlPointModel := st.controlPointModel,
    automatics := st.automatics }

/-- `GeometryDatabase.restoreFromMemento` (lines 427–434): replace each of
the six tracked maps wholesale with a copy of the memento's. -/
def restoreFromMemento (st : GeometryDatabase) (m : GeometryMemento) :
    GeometryDatabase :=
  { st with
    geometryModel := m.geometryModel,
    version2name := m.version2name,
    name2version := m.name2version,
    topologyModel := m.topologyModel,
    controlPointModel := m.controlPointModel,
    automatics := m.automatics }

/-- A database mutation, for reasoning about arbitrary operation
sequences. -/
inductive DbOp where
  | add (item : ItemData) (agent : Agent) (name : Option Int)
  | replace (fromId : Int) (fromTopoKeys fromCpKeys : List String) (item : ItemData)
  | remove (viewId : Int) (topoKeys cpKeys : List String)
  | temp
  | phantom
deriving DecidableEq, Repr

/-- Apply one operation; `none` when a non-null assertion in the source
would have been violated (a looked-up item was missing). -/
def applyOp (st : GeometryDatabase) : DbOp → Option GeometryDatabase
  | .add item agent name => some (addItem st item agent name).2
  | .replace fromId ftk fck item => (replaceItem st fromId ftk fck item).map (·.2)
  | .remove viewId tk ck => removeItem st viewId tk ck
  | .temp => some (addTemporaryItem st false).2
  | .phantom => some (addPhantom st).2

/-- Run a sequence of operations, each under its precondition. -/
def runOps (st : GeometryDatabase) : List DbOp → Option GeometryDatabase
  | [] => some st
  | op :: rest =>
    match applyOp st op with
    | none => none
    | some st' => runOps st' rest

/-- An operation's explicit name, if it supplies one, is absent from both
name indices (the guard under which the bijection invariant is
maintained). -/
def opNameOk (st : GeometryDatabase) : DbOp → Bool
  | .add _ _ (some k) =>
    decide (mget st.version2name k = none ∧ mget st.name2version k = none)
  | _ => true

/-- Every `addItem` in the sequence either supplies no explicit name or
supplies one that is absent from both name indices at that point. -/
def namesOk (st : GeometryDatabase) : List DbOp → Bool
  | [] => true
  | op :: rest =>
    opNameOk st op &&
    (match applyOp st op with
     | none => true
     | some st' => namesOk st' rest)

/-- The name↔version bijection invariant of the two indices (spec §3):
well-formed maps of equal size that are exact inverses of one another,
together with the counter bound that makes freshly assigned ids new. -/
def Inv (st : GeometryDatabase) : Prop :=
  wfm st.version2name ∧ wfm st.name2version ∧
  st.version2name.length = st.name2version.length ∧
  (∀ v n, mget st.version2name v = some n ↔ mget st.name2version n = some v) ∧
  (∀ p ∈ st.version2name, p.1 < st.positiveCounter ∧ p.2 < st.positiveCounter)

/-- Counter discipline of the database: every real item's id is below the
positive counter, the positive counter stays positive and the negative
counter stays negative. -/
def Ctr (st : GeometryDatabase) : Prop :=
  (∀ p ∈ st.geometryModel, p.1 < st.positiveCounter) ∧
  1 ≤ st.positiveCounter ∧ st.negativeCounter ≤ -1

end Geo

namespace CmdExec

/-- History discipline: only commands that finished successfully have a
History entry. -/
def InvHist (s : MState) : Prop :=
  ∀ c, c ∈ s.history → s.states c = CState.finished

/-- Promise discipline: a command that has reached a terminal state has had
its enqueue promise resolved. -/
def InvRes (s : MState) : Prop :=
  ∀ c, isTerminal (s.states c) = true → s.resolved c = true

/-- Scheduler discipline (holds along well-formed traces): the active
command is still `None` or was preempted to `Interrupted`, and the pending
command has not started and is not simultaneously active. -/
def InvExec (s : MState) : Prop :=
  (∀ a, s.active = some a →
    s.states a = CState.none_ ∨ s.states a = CState.interrupted) ∧
  (∀ d, s.next = some d → s.states d = CState.none_ ∧ s.active ≠ some d)

/-- Command `c` was displaced from the pending slot without ever starting:
it stays `None` and is referenced by neither scheduler slot. -/
def Dropped (c : Nat) (s : MState) : Prop :=
  s.states c = CState.none_ ∧ s.active ≠ some c ∧ s.next ≠ some c

end CmdExec

section Scenarios

open CmdExec

open Geo

/-- A minimal item payload for concrete scenarios. -/
def gItem : ItemData := { model := 0, topo := [], cps := [] }

/-- Operation sequence of the bijection counterexample: add an item under
explicit name 1, replace it (name 1 now points at version 2), then add a
fresh item under explicit name 2, clobbering the version-2 index entry. -/
def cexOps : List DbOp :=
  [.add gItem .user (some 1), .replace 1 [] [] gItem, .add gItem .user (some 2)]

/-- The database state the counterexample run produces. -/
def cexSt : GeometryDatabase :=
  { geometryModel := [(2, 0)], version2name := [(2, 2)],
    name2version := [(1, 2), (2, 2)], automatics := [], topologyModel := [],
    controlPointModel := [], temporaryObjects := [], phantomObjects := [],
    positiveCounter := 3, negativeCounter := -1 }

/-- A checked witness run: one auto-named add followed by a replace. -/
def wOps : List DbOp := [.add gItem .user none, .replace 1 [] [] gItem]

/-- The database state the witness run produces. -/
def wSt : GeometryDatabase :=
  { geometryModel := [(2, 0)], version2name := [(2, 1)],
    name2version := [(1, 2)], automatics := [], topologyModel := [],
    controlPointModel := [], temporaryObjects := [], phantomObjects := [],
    positiveCounter := 3, negativeCounter := -1 }

/-- A database holding one item (id 1), used as a concrete witness state. -/
def gDb1 : GeometryDatabase := (addItem dbInit gItem Agent.user none).2

end Scenarios

section MapLemmas

variable {α β : Type} [DecidableEq α]

theorem mget_mset_self (m : List (α × β)) (k : α) (v : β) :
    mget (mset m k v) k = some v := by
  induction m with
  | nil => simp [mset, mget]
  | cons p rest ih =>
    by_cases h : p.1 = k
    · simp [mset, h, mget]
    · simp [mset, h, mget, ih]

theorem mget_mset_ne (m : List (α × β)) (k k' : α) (v : β) (h : k' ≠ k) :
    mget (mset m k v) k' = mget m k' := by
  have hk : k ≠ k' := Ne.symm h
  induction m with
  | nil => simp [mset, mget, hk]
  | cons p rest ih =>
    by_cases hp : p.1 = k
    · rw [mset, if_pos hp, mget, mget, if_neg hk, hp, if_neg hk]
    · rw [mset, if_neg hp, mget, mget]
      by_cases hq : p.1 = k'
      · rw [if_pos hq, if_pos hq]
      · rw [if_neg hq, if_neg hq, ih]

theorem mget_mdel_self (m : List (α × β)) (k : α) :
    mget (mdel m k) k = none := by
  induction m with
  | nil => simp [mdel, mget]
  | cons p rest ih =>
    by_cases h : p.1 = k
    · simp [mdel, h, ih]
    · simp [mdel, h, mget, ih]

theorem mget_mdel_ne (m : List (α × β)) (k k' : α) (h : k' ≠ k) :
    mget (mdel m k) k' = mget m k' := by
  induction m with
  | nil => simp [mdel]
  | cons p rest ih =>
    by_cases hp : p.1 = k
    · have hq : p.1 ≠ k' := by rw [hp]; exact Ne.symm h
      rw [mdel, if_pos hp, ih, mget, if_neg hq]
    · rw [mdel, if_neg hp, mget, mget]
      by_cases hq : p.1 = k'
      · rw [if_pos hq, if_pos hq]
      · rw [if_neg hq, if_neg hq, ih]

theorem mget_some_mem (m : List (α × β)) (k : α) (v : β)
    (h : mget m k = some v) : (k, v) ∈ m := by
  induction m with
  | nil => simp [mget] at h
  | cons p rest ih =>
    by_cases hp : p.1 = k
    · simp only [mget, if_pos hp, Option.some.injEq] at h
      have hpv : p = (k, v) := by
        obtain ⟨a, b⟩ := p
        simp only at hp h
        rw [hp, h]
      rw [← hpv]
      exact List.mem_cons_self _ _
    · simp only [mget, if_neg hp] at h
      exact List.mem_cons_of_mem _ (ih h)

theorem mem_mset (m : List (α × β)) (k : α) (v : β) (p : α × β)
    (h : p ∈ mset m k v) : p ∈ m ∨ p = (k, v) := by
  induction m with
  | nil =>
    simp only [mset, List.mem_singleton] at h
    exact Or.inr h
  | cons q rest ih =>
    by_cases hq : q.1 = k
    · rw [mset, if_pos hq, List.mem_cons] at h
      rcases h with h | h
      · exact Or.inr h
      · exact Or.inl (List.mem_cons_of_mem _ h)
    · rw [mset, if_neg hq, List.mem_cons] at h
      rcases h with h | h
      · exact Or.inl (h ▸ List.mem_cons_self _ _)
      · rcases ih h with h' | h'
        · exact Or.inl (List.mem_cons_of_mem _ h')
        · exact Or.inr h'

theorem mem_mdel (m : List (α × β)) (k : α) (p : α × β)
    (h : p ∈ mdel m k) : p ∈ m := by
  induction m with
  | nil => simp [mdel] at h
  | cons q rest ih =>
    by_cases hq : q.1 = k
    · simp only [mdel, if_pos hq] at h
      exact List.mem_cons_of_mem _ (ih h)
    · simp only [mdel, if_neg hq] at h
      rw [List.mem_cons] at h
      rcases h with h | h
      · rw [List.mem_cons]; left; rw [h]
      · exact List.mem_cons_of_mem _ (ih h)

theorem mem_keys_mset (m : List (α × β)) (k : α) (v : β) (a : α)
    (h : a ∈ (mset m k v).map Prod.fst) : a ∈ m.map Prod.fst ∨ a = k := by
  simp only [List.mem_map] at h
  obtain ⟨p, hp, hpa⟩ := h
  rcases mem_mset m k v p hp with h' | h'
  · left; exact List.mem_map.2 ⟨p, h', hpa⟩
  · right; rw [← hpa, h']

theorem mem_keys_mdel (m : List (α × β)) (k : α) (a : α)
    (h : a ∈ (mdel m k).map Prod.fst) : a ∈ m.map Prod.fst := by
  simp only [List.mem_map] at h
  obtain ⟨p, hp, hpa⟩ := h
  exact List.mem_map.2 ⟨p, mem_mdel m k p hp, hpa⟩

theorem wfm_mset (m : List (α × β)) (k : α) (v : β) (h : wfm m) :
    wfm (mset m k v) := by
  induction m with
  | nil => simp [mset, wfm]
  | cons p rest ih =>
    rw [wfm, List.map_cons, List.nodup_cons] at h
    by_cases hp : p.1 = k
    · rw [mset, if_pos hp, wfm, List.map_cons, List.nodup_cons]
      exact ⟨by rw [← hp]; exact h.1, h.2⟩
    · rw [mset, if_neg hp, wfm, List.map_cons, List.nodup_cons]
      refine ⟨fun hmem => ?_, ih h.2⟩
      rcases mem_keys_mset rest k v p.1 hmem with h' | h'
      · exact h.1 h'
      · exact hp h'

theorem wfm_mdel (m : List (α × β)) (k : α) (h : wfm m) :
    wfm (mdel m k) := by
  induction m with
  | nil => simp [mdel, wfm]
  | cons p rest ih =>
    rw [wfm, List.map_cons, List.nodup_cons] at h
    by_cases hp : p.1 = k
    · rw [mdel, if_pos hp]; exact ih h.2
    · rw [mdel, if_neg hp, wfm, List.map_cons, List.nodup_cons]
      exact ⟨fun hmem => h.1 (mem_keys_mdel rest k p.1 hmem), ih h.2⟩

theorem mget_none_not_mem_keys (m : List (α × β)) (k : α)
    (h : mget m k = none) : k ∉ m.map Prod.fst := by
  induction m with
  | nil => simp
  | cons p rest ih =>
    by_cases hp : p.1 = k
    · simp [mget, hp] at h
    · simp only [mget, if_neg hp] at h
      simp only [List.map_cons, List.mem_cons]
      rintro (h' | h')
      · exact hp h'.symm
      · exact ih h h'

theorem mdel_not_mem (m : List (α × β)) (k : α)
    (h : k ∉ m.map Prod.fst) : mdel m k = m := by
  induction m with
  | nil => rfl
  | cons p rest ih =>
    simp only [List.map_cons, List.mem_cons, not_or] at h
    rw [mdel, if_neg (fun hh => h.1 hh.symm), ih h.2]

theorem length_mset_none (m : List (α × β)) (k : α) (v : β)
    (h : mget m k = none) : (mset m k v).length = m.length + 1 := by
  induction m with
  | nil => simp [mset]
  | cons p rest ih =>
    by_cases hp : p.1 = k
    · simp [mget, hp] at h
    · simp only [mget, if_neg hp] at h
      simp [mset, if_neg hp, ih h]

theorem length_mset_some (m : List (α × β)) (k : α) (v w : β)
    (h : mget m k = some w) : (mset m k v).length = m.length := by
  induction m with
  | nil => simp [mget] at h
  | cons p rest ih =>
    by_cases hp : p.1 = k
    · simp [mset, hp]
    · simp only [mget, if_neg hp] at h
      simp [mset, if_neg hp, ih h]

theorem length_mdel_some (m : List (α × β)) (k : α) (w : β)
    (hwf : wfm m) (h : mget m k = some w) :
    (mdel m k).length + 1 = m.length := by
  induction m with
  | nil => simp [mget] at h
  | cons p rest ih =>
    rw [wfm, List.map_cons, List.nodup_cons] at hwf
    by_cases hp : p.1 = k
    · rw [mdel, if_pos hp]
      rw [mdel_not_mem rest k (by rw [← hp]; exact hwf.1)]
      simp
    · simp only [mget, if_neg hp] at h
      simp [mdel, if_neg hp, ih hwf.2 h]

end MapLemmas

namespace Geo

@[simp] theorem insertItem_version2name (st : GeometryDatabase)
    (item : ItemData) (agent : Agent) (name : Option Int) :
    (insertItem st item agent name).2.version2name = st.version2name := rfl

@[simp] theorem insertItem_name2version (st : GeometryDatabase)
    (item : ItemData) (agent : Agent) (name : Option Int) :
    (insertItem st item agent name).2.name2version = st.name2version := rfl

@[simp] theorem insertItem_fst_none (st : GeometryDatabase)
    (item : ItemData) (agent : Agent) :
    (insertItem st item agent none).1 = st.positiveCounter := rfl

@[simp] theorem insertItem_positiveCounter_none (st : GeometryDatabase)
    (item : ItemData) (agent : Agent) :
    (insertItem st item agent none).2.positiveCounter = st.positiveCounter + 1 := rfl

@[simp] theorem insertItem_geometryModel_none (st : GeometryDatabase)
    (item : ItemData) (agent : Agent) :
    (insertItem st item agent none).2.geometryModel =
      mset st.geometryModel st.positiveCounter item.model := rfl

@[simp] theorem insertItem_fst_some (st : GeometryDatabase)
    (item : ItemData) (agent : Agent) (k : Int) :
    (insertItem st item agent (some k)).1 = k := rfl

@[simp] theorem insertItem_positiveCounter_some (st : GeometryDatabase)
    (item : ItemData) (agent : Agent) (k : Int) :
    (insertItem st item agent (some k)).2.positiveCounter =
      max st.positiveCounter (k + 1) := rfl

@[simp] theorem insertItem_geometryModel_some (st : GeometryDatabase)
    (item : ItemData) (agent : Agent) (k : Int) :
    (insertItem st item agent (some k)).2.geometryModel =
      mset st.geometryModel k item.model := rfl

@[simp] theorem removeItemRaw_version2name (st : GeometryDatabase)
    (viewId : Int) (tk ck : List String) :
    (removeItemRaw st viewId tk ck).version2name = st.version2name := rfl

@[simp] theorem removeItemRaw_name2version (st : GeometryDatabase)
    (viewId : Int) (tk ck : List String) :
    (removeItemRaw st viewId tk ck).name2version = st.name2version := rfl

@[simp] theorem removeItemRaw_positiveCounter (st : GeometryDatabase)
    (viewId : Int) (tk ck : List String) :
    (removeItemRaw st viewId tk ck).positiveCounter = st.positiveCounter := rfl

@[simp] theorem removeItemRaw_geometryModel (st : GeometryDatabase)
    (viewId : Int) (tk ck : List String) :
    (removeItemRaw st viewId tk ck).geometryModel =
      mdel st.geometryModel viewId := rfl

@[simp] theorem addTemporaryItem_version2name (st : GeometryDatabase)
    (b : Bool) : (addTemporaryItem st b).2.version2name = st.version2name := by
  cases b <;> rfl

@[simp] theorem addTemporaryItem_name2version (st : GeometryDatabase)
    (b : Bool) : (addTemporaryItem st b).2.name2version = st.name2version := by
  cases b <;> rfl

@[simp] theorem addTemporaryItem_positiveCounter (st : GeometryDatabase)
    (b : Bool) :
    (addTemporaryItem st b).2.positiveCounter = st.positiveCounter := by
  cases b <;> rfl

@[simp] theorem addTemporaryItem_geometryModel (st : GeometryDatabase)
    (b : Bool) :
    (addTemporaryItem st b).2.geometryModel = st.geometryModel := by
  cases b <;> rfl

@[simp] theorem addTemporaryItem_negativeCounter (st : GeometryDatabase)
    (b : Bool) :
    (addTemporaryItem st b).2.negativeCounter = st.negativeCounter - 1 := by
  cases b <;> rfl

@[simp] theorem addTemporaryItem_fst (st : GeometryDatabase) (b : Bool) :
    (addTemporaryItem st b).1 = st.negativeCounter := by
  cases b <;> rfl

/-- The positive counter has never been used as a version or as a name. -/
theorem fresh_counter (st : GeometryDatabase) (hinv : Inv st) :
    mget st.version2name st.positiveCounter = none ∧
    mget st.name2version st.positiveCounter = none := by
  obtain ⟨_, _, _, hiff, hbnd⟩ := hinv
  constructor
  · cases hget : mget st.version2name st.positiveCounter with
    | none => rfl
    | some w =>
      exact absurd (hbnd _ (mget_some_mem _ _ _ hget)).1 (lt_irrefl _)
  · cases hget : mget st.name2version st.positiveCounter with
    | none => rfl
    | some w =>
      have := (hiff w st.positiveCounter).mpr hget
      exact absurd (hbnd _ (mget_some_mem _ _ _ this)).2 (lt_irrefl _)

/-- Adding the identity pair of a fresh id to both indices preserves
well-formedness, equal size and inverseness. -/
theorem inv_maps_set_fresh (v2n n2v : List (Int × Int)) (n : Int)
    (hwf1 : wfm v2n) (hwf2 : wfm n2v) (hlen : v2n.length = n2v.length)
    (hiff : ∀ v m, mget v2n v = some m ↔ mget n2v m = some v)
    (h1 : mget v2n n = none) (h2 : mget n2v n = none) :
    wfm (mset v2n n n) ∧ wfm (mset n2v n n) ∧
    (mset v2n n n).length = (mset n2v n n).length ∧
    (∀ v m, mget (mset v2n n n) v = some m ↔ mget (mset n2v n n) m = some v) := by
  refine ⟨wfm_mset _ _ _ hwf1, wfm_mset _ _ _ hwf2, ?_, ?_⟩
  · rw [length_mset_none _ _ _ h1, length_mset_none _ _ _ h2, hlen]
  · intro v m
    by_cases hv : v = n
    · by_cases hm : m = n
      · rw [hv, hm, mget_mset_self, mget_mset_self]
      · rw [hv, mget_mset_self, mget_mset_ne _ _ _ _ hm]
        constructor
        · intro he; exact absurd (Option.some_inj.mp he).symm hm
        · intro he
          have h3 := (hiff n m).mpr he
          rw [h1] at h3; exact absurd h3 (by simp)
    · rw [mget_mset_ne _ _ _ _ hv]
      by_cases hm : m = n
      · rw [hm, mget_mset_self]
        constructor
        · intro he
          have h3 := (hiff v n).mp he
          rw [h2] at h3; exact absurd h3 (by simp)
        · intro he; exact absurd (Option.some_inj.mp he).symm hv
      · rw [mget_mset_ne _ _ _ _ hm]; exact hiff v m

/-- `addItem` preserves the bijection invariant, provided an explicitly
supplied name is absent from both indices. -/
theorem inv_addItem (st : GeometryDatabase) (item : ItemData) (agent : Agent)
    (name : Option Int) (hinv : Inv st)
    (hok : ∀ k, name = some k →
      mget st.version2name k = none ∧ mget st.name2version k = none) :
    Inv (addItem st item agent name).2 := by
  obtain ⟨hwf1, hwf2, hlen, hiff, hbnd⟩ := hinv
  cases name with
  | none =>
    have hfresh := fresh_counter st ⟨hwf1, hwf2, hlen, hiff, hbnd⟩
    obtain ⟨ha, hb, hc, hd⟩ := inv_maps_set_fresh st.version2name st.name2version
      st.positiveCounter hwf1 hwf2 hlen hiff hfresh.1 hfresh.2
    refine ⟨ha, hb, hc, hd, ?_⟩
    intro p hp
    rcases mem_mset _ _ _ _ hp with hmem | hmem
    · have := hbnd p hmem
      exact ⟨lt_trans this.1 (lt_add_one _), lt_trans this.2 (lt_add_one _)⟩
    · rw [hmem]; exact ⟨lt_add_one _, lt_add_one _⟩
  | some k =>
    obtain ⟨h1, h2⟩ := hok k rfl
    obtain ⟨ha, hb, hc, hd⟩ := inv_maps_set_fresh st.version2name st.name2version
      k hwf1 hwf2 hlen hiff h1 h2
    refine ⟨ha, hb, hc, hd, ?_⟩
    intro p hp
    rcases mem_mset _ _ _ _ hp with hmem | hmem
    · have := hbnd p hmem
      exact ⟨lt_of_lt_of_le this.1 (le_max_left _ _),
             lt_of_lt_of_le this.2 (le_max_left _ _)⟩
    · rw [hmem]
      exact ⟨lt_of_lt_of_le (lt_add_one _) (le_max_right _ _),
             lt_of_lt_of_le (lt_add_one _) (le_max_right _ _)⟩

/-- Successful `replaceItem`, destructured: the old version was indexed,
the new version id is the positive counter, and the resulting maps. -/
theorem replaceItem_some (st : GeometryDatabase) (fromId : Int)
    (ftk fck : List String) (item : ItemData) (toId : Int)
    (st' : GeometryDatabase)
    (h : replaceItem st fromId ftk fck item = some (toId, st')) :
    ∃ nm, mget st.version2name fromId = some nm ∧
      toId = st.positiveCounter ∧
      st'.version2name =
        mset (mdel st.version2name fromId) st.positiveCounter nm ∧
      st'.name2version = mset st.name2version nm st.positiveCounter ∧
      st'.positiveCounter = st.positiveCounter + 1 ∧
      st'.geometryModel =
        mdel (mset st.geometryModel st.positiveCounter item.model) fromId ∧
      st'.negativeCounter = st.negativeCounter := by
  simp only [replaceItem, insertItem, removeItemRaw] at h
  cases hfrom : mget st.version2name fromId with
  | none => rw [hfrom] at h; simp at h
  | some nm =>
    rw [hfrom] at h
    simp only [Option.some_inj] at h
    injection h with h1 h2
    refine ⟨nm, rfl, h1.symm, ?_, ?_, ?_, ?_, ?_⟩
    · rw [← h2]
    · rw [← h2]
    · rw [← h2]
    · rw [← h2]
    · rw [← h2]

/-- Successful `removeItem`, destructured. -/
theorem removeItem_some (st : GeometryDatabase) (viewId : Int)
    (tk ck : List String) (st' : GeometryDatabase)
    (h : removeItem st viewId tk ck = some st') :
    ∃ old, mget st.version2name viewId = some old ∧
      st'.version2name = mdel st.version2name viewId ∧
      st'.name2version = mdel st.name2version old ∧
      st'.positiveCounter = st.positiveCounter ∧
      st'.geometryModel = mdel st.geometryModel viewId ∧
      st'.negativeCounter = st.negativeCounter := by
  simp only [removeItem, removeItemRaw] at h
  cases hview : mget st.version2name viewId with
  | none => rw [hview] at h; simp at h
  | some old =>
    rw [hview] at h
    simp only [Option.some_inj] at h
    refine ⟨old, rfl, ?_, ?_, ?_, ?_, ?_⟩
    · rw [← h]
    · rw [← h]
    · rw [← h]
    · rw [← h]
    · rw [← h]

/-- `replaceItem` preserves the bijection invariant. -/
theorem inv_replaceItem (st : GeometryDatabase) (fromId : Int)
    (ftk fck : List String) (item : ItemData) (toId : Int)
    (st' : GeometryDatabase) (hinv : Inv st)
    (h : replaceItem st fromId ftk fck item = some (toId, st')) : Inv st' := by
  obtain ⟨hwf1, hwf2, hlen, hiff, hbnd⟩ := hinv
  obtain ⟨nm, hfrom, htoId, hv2n, hn2v, hpc, hgm, hnc⟩ :=
    replaceItem_some st fromId ftk fck item toId st' h
  have hfresh := fresh_counter st ⟨hwf1, hwf2, hlen, hiff, hbnd⟩
  have hrev : mget st.name2version nm = some fromId := (hiff fromId nm).mp hfrom
  have hlt := hbnd _ (mget_some_mem _ _ _ hfrom)
  have hfne : fromId ≠ st.positiveCounter := ne_of_lt hlt.1
  have hnmlt : nm < st.positiveCounter := hlt.2
  refine ⟨?_, ?_, ?_, ?_, ?_⟩
  · rw [hv2n]; exact wfm_mset _ _ _ (wfm_mdel _ _ hwf1)
  · rw [hn2v]; exact wfm_mset _ _ _ hwf2
  · rw [hv2n, hn2v]
    have e1 : mget (mdel st.version2name fromId) st.positiveCounter = none := by
      rw [mget_mdel_ne _ _ _ (Ne.symm hfne)]; exact hfresh.1
    have e2 := length_mset_none _ _ nm e1
    have e3 := length_mdel_some _ _ _ hwf1 hfrom
    have e4 := length_mset_some _ _ st.positiveCounter _ hrev
    omega
  · rw [hv2n, hn2v]
    intro v m
    by_cases hv : v = st.positiveCounter
    · rw [hv, mget_mset_self]
      by_cases hm : m = nm
      · rw [hm, mget_mset_self]
        exact ⟨fun _ => rfl, fun _ => rfl⟩
      · rw [mget_mset_ne _ _ _ _ hm]
        constructor
        · intro he; exact absurd (Option.some_inj.mp he).symm hm
        · intro he
          have h3 := (hiff st.positiveCounter m).mpr he
          rw [hfresh.1] at h3; exact absurd h3 (by simp)
    · rw [mget_mset_ne _ _ _ _ hv]
      by_cases hvf : v = fromId
      · rw [hvf, mget_mdel_self]
        constructor
        · intro he; exact absurd he (by simp)
        · intro he
          exfalso
          by_cases hm : m = nm
          · rw [hm, mget_mset_self] at he
            exact hfne (Option.some_inj.mp he).symm
          · rw [mget_mset_ne _ _ _ _ hm] at he
            have h3 := (hiff fromId m).mpr he
            rw [hfrom] at h3
            exact hm (Option.some_inj.mp h3).symm
      · rw [mget_mdel_ne _ _ _ hvf]
        by_cases hm : m = nm
        · rw [hm, mget_mset_self]
          constructor
          · intro he
            have h3 := (hiff v nm).mp he
            rw [hrev] at h3
            exact absurd (Option.some_inj.mp h3) (fun hh => hvf hh.symm)
          · intro he; exact absurd (Option.some_inj.mp he).symm hv
        · rw [mget_mset_ne _ _ _ _ hm]; exact hiff v m
  · rw [hv2n, hpc]
    intro p hp
    rcases mem_mset _ _ _ _ hp with hmem | hmem
    · have h3 := hbnd p (mem_mdel _ _ _ hmem)
      exact ⟨lt_trans h3.1 (lt_add_one _), lt_trans h3.2 (lt_add_one _)⟩
    · rw [hmem]
      exact ⟨lt_add_one _, lt_trans hnmlt (lt_add_one _)⟩

/-- `removeItem` preserves the bijection invariant. -/
theorem inv_removeItem (st : GeometryDatabase) (viewId : Int)
    (tk ck : List String) (st' : GeometryDatabase) (hinv : Inv st)
    (h : removeItem st viewId tk ck = some st') : Inv st' := by
  obtain ⟨hwf1, hwf2, hlen, hiff, hbnd⟩ := hinv
  obtain ⟨old, hview, hv2n, hn2v, hpc, hgm, hnc⟩ :=
    removeItem_some st viewId tk ck st' h
  have hrev : mget st.name2version old = some viewId := (hiff viewId old).mp hview
  refine ⟨?_, ?_, ?_, ?_, ?_⟩
  · rw [hv2n]; exact wfm_mdel _ _ hwf1
  · rw [hn2v]; exact wfm_mdel _ _ hwf2
  · rw [hv2n, hn2v]
    have e1 := length_mdel_some _ _ _ hwf1 hview
    have e2 := length_mdel_some _ _ _ hwf2 hrev
    omega
  · rw [hv2n, hn2v]
    intro v m
    by_cases hv : v = viewId
    · rw [hv, mget_mdel_self]
      constructor
      · intro he; exact absurd he (by simp)
      · intro he
        exfalso
        by_cases hm : m = old
        · rw [hm, mget_mdel_self] at he
          exact Option.noConfusion he
        · rw [mget_mdel_ne _ _ _ hm] at he
          have h3 := (hiff viewId m).mpr he
          rw [hview] at h3
          exact hm (Option.some_inj.mp h3).symm
    · rw [mget_mdel_ne _ _ _ hv]
      by_cases hm : m = old
      · rw [hm, mget_mdel_self]
        constructor
        · intro he
          have h3 := (hiff v old).mp he
          rw [hrev] at h3
          exact absurd (Option.some_inj.mp h3) (fun hh => hv hh.symm)
        · intro he; exact absurd he (by simp)
      · rw [mget_mdel_ne _ _ _ hm]; exact hiff v m
  · rw [hv2n, hpc]
    intro p hp
    exact hbnd p (mem_mdel _ _ _ hp)

/-- The invariant only depends on the two indices and the counter. -/
theorem inv_transport (st st' : GeometryDatabase)
    (h1 : st'.version2name = st.version2name)
    (h2 : st'.name2version = st.name2version)
    (h3 : st'.positiveCounter = st.positiveCounter)
    (hinv : Inv st) : Inv st' := by
  rw [Inv, h1, h2, h3]; exact hinv

/-- The empty database satisfies the invariant. -/
theorem inv_dbInit : Inv dbInit := by
  refine ⟨List.nodup_nil, List.nodup_nil, rfl, ?_, ?_⟩
  · intro v n
    constructor
    · intro he; exact absurd he (by simp [dbInit, mget])
    · intro he; exact absurd he (by simp [dbInit, mget])
  · intro p hp; exact absurd hp (by simp [dbInit])

/-- Any checked run of database operations preserves the invariant. -/
theorem inv_runOps (ops : List DbOp) : ∀ st st', Inv st →
    namesOk st ops = true → runOps st ops = some st' → Inv st' := by
  induction ops with
  | nil =>
    intro st st' hinv _ h
    rw [runOps] at h
    exact (Option.some_inj.mp h) ▸ hinv
  | cons op rest ih =>
    intro st st' hinv hok h
    cases hap : applyOp st op with
    | none =>
      simp only [runOps, hap] at h
      exact Option.noConfusion h
    | some st1 =>
      simp only [runOps, hap] at h
      simp only [namesOk, hap, Bool.and_eq_true] at hok
      refine ih st1 st' ?_ hok.2 h
      cases op with
      | add item agent name =>
        have hst1 : st1 = (addItem st item agent name).2 :=
          (Option.some_inj.mp hap).symm
        rw [hst1]
        refine inv_addItem st item agent name hinv ?_
        intro k hk
        have hok1 := hok.1
        rw [hk] at hok1
        simp only [opNameOk] at hok1
        exact of_decide_eq_true hok1
      | replace fromId ftk fck item =>
        simp only [applyOp, Option.map_eq_some'] at hap
        obtain ⟨pr, hpr, hpr2⟩ := hap
        rw [← hpr2]
        exact inv_replaceItem st fromId ftk fck item pr.1 pr.2 hinv
          (by rw [hpr])
      | remove viewId tk ck =>
        exact inv_removeItem st viewId tk ck st1 hinv hap
      | temp =>
        have hst1 : st1 = (addTemporaryItem st false).2 :=
          (Option.some_inj.mp hap).symm
        rw [hst1]
        exact inv_transport st _ (by simp) (by simp) (by simp) hinv
      | phantom =>
        have hst1 : st1 = (addPhantom st).2 := (Option.some_inj.mp hap).symm
        rw [hst1]
        exact inv_transport st _ (by simp [addPhantom]) (by simp [addPhantom])
          (by simp [addPhantom]) hinv

@[simp] theorem insertItem_negativeCounter (st : GeometryDatabase)
    (item : ItemData) (agent : Agent) (name : Option Int) :
    (insertItem st item agent name).2.negativeCounter = st.negativeCounter := rfl

@[simp] theorem addItem_fst (st : GeometryDatabase) (item : ItemData)
    (agent : Agent) (name : Option Int) :
    (addItem st item agent name).1 = (insertItem st item agent name).1 := rfl

@[simp] theorem addItem_geometryModel (st : GeometryDatabase)
    (item : ItemData) (agent : Agent) (name : Option Int) :
    (addItem st item agent name).2.geometryModel =
      (insertItem st item agent name).2.geometryModel := rfl

@[simp] theorem addItem_positiveCounter (st : GeometryDatabase)
    (item : ItemData) (agent : Agent) (name : Option Int) :
    (addItem st item agent name).2.positiveCounter =
      (insertItem st item agent name).2.positiveCounter := rfl

@[simp] theorem addItem_negativeCounter (st : GeometryDatabase)
    (item : ItemData) (agent : Agent) (name : Option Int) :
    (addItem st item agent name).2.negativeCounter = st.negativeCounter := rfl

/-- The empty database satisfies the counter discipline. -/
theorem ctr_dbInit : Ctr dbInit := by
  refine ⟨?_, le_refl _, le_refl _⟩
  intro p hp
  exact absurd hp (by simp [dbInit])

/-- Every database operation preserves the counter discipline, and never
decreases the positive counter. -/
theorem ctr_applyOp (st : GeometryDatabase) (op : DbOp)
    (st' : GeometryDatabase) (hc : Ctr st) (hap : applyOp st op = some st') :
    Ctr st' ∧ st.positiveCounter ≤ st'.positiveCounter := by
  obtain ⟨hgm, hpos, hneg⟩ := hc
  cases op with
  | add item agent name =>
    have hst' : st' = (addItem st item agent name).2 :=
      (Option.some_inj.mp hap).symm
    rw [hst']
    cases name with
    | none =>
      refine ⟨⟨?_, ?_, ?_⟩, ?_⟩ <;> simp only [addItem_geometryModel,
        addItem_positiveCounter, addItem_negativeCounter,
        insertItem_geometryModel_none, insertItem_positiveCounter_none]
      · intro p hp
        rcases mem_mset _ _ _ _ hp with hmem | hmem
        · exact lt_trans (hgm p hmem) (lt_add_one _)
        · rw [hmem]; exact lt_add_one _
      · linarith
      · exact hneg
      · linarith
    | some k =>
      refine ⟨⟨?_, ?_, ?_⟩, ?_⟩ <;> simp only [addItem_geometryModel,
        addItem_positiveCounter, addItem_negativeCounter,
        insertItem_geometryModel_some, insertItem_positiveCounter_some]
      · intro p hp
        rcases mem_mset _ _ _ _ hp with hmem | hmem
        · exact lt_of_lt_of_le (hgm p hmem) (le_max_left _ _)
        · rw [hmem]
          exact lt_of_lt_of_le (lt_add_one _) (le_max_right _ _)
      · exact le_trans hpos (le_max_left _ _)
      · exact hneg
      · exact le_max_left _ _
  | replace fromId ftk fck item =>
    simp only [applyOp, Option.map_eq_some'] at hap
    obtain ⟨pr, hpr, hpr2⟩ := hap
    obtain ⟨nm, _, _, _, _, hpc, hgm', hnc⟩ :=
      replaceItem_some st fromId ftk fck item pr.1 pr.2 (by rw [hpr])
    rw [← hpr2]
    refine ⟨⟨?_, ?_, ?_⟩, ?_⟩
    · rw [hgm', hpc]
      intro p hp
      rcases mem_mset _ _ _ _ (mem_mdel _ _ _ hp) with hmem | hmem
      · exact lt_trans (hgm p hmem) (lt_add_one _)
      · rw [hmem]; exact lt_add_one _
    · rw [hpc]; linarith
    · rw [hnc]; exact hneg
    · rw [hpc]; linarith
  | remove viewId tk ck =>
    obtain ⟨old, _, _, _, hpc, hgm', hnc⟩ :=
      removeItem_some st viewId tk ck st' hap
    refine ⟨⟨?_, ?_, ?_⟩, ?_⟩
    · rw [hgm', hpc]
      intro p hp
      exact hgm p (mem_mdel _ _ _ hp)
    · rw [hpc]; exact hpos
    · rw [hnc]; exact hneg
    · rw [hpc]
  | temp =>
    have hst' : st' = (addTemporaryItem st false).2 :=
      (Option.some_inj.mp hap).symm
    rw [hst']
    refine ⟨⟨?_, ?_, ?_⟩, ?_⟩ <;> simp only [addTemporaryItem_geometryModel,
      addTemporaryItem_positiveCounter, addTemporaryItem_negativeCounter]
    · exact hgm
    · exact hpos
    · linarith
    · exact le_refl _
  | phantom =>
    have hst' : st' = (addPhantom st).2 := (Option.some_inj.mp hap).symm
    rw [hst', addPhantom]
    refine ⟨⟨?_, ?_, ?_⟩, ?_⟩ <;> simp only [addTemporaryItem_geometryModel,
      addTemporaryItem_positiveCounter, addTemporaryItem_negativeCounter]
    · exact hgm
    · exact hpos
    · linarith
    · exact le_refl _

/-- Counter discipline and counter monotonicity along any run. -/
theorem ctr_runOps (ops : List DbOp) : ∀ st st', Ctr st →
    runOps st ops = some st' →
    Ctr st' ∧ st.positiveCounter ≤ st'.positiveCounter := by
  induction ops with
  | nil =>
    intro st st' hc h
    rw [runOps] at h
    exact (Option.some_inj.mp h) ▸ ⟨hc, le_refl _⟩
  | cons op rest ih =>
    intro st st' hc h
    cases hap : applyOp st op with
    | none =>
      simp only [runOps, hap] at h
      exact Option.noConfusion h
    | some st1 =>
      simp only [runOps, hap] at h
      obtain ⟨hc1, hle1⟩ := ctr_applyOp st op st1 hc hap
      obtain ⟨hc2, hle2⟩ := ih st1 st' hc1 h
      exact ⟨hc2, le_trans hle1 hle2⟩

end Geo

namespace CmdExec

theorem upd_self {β : Type} (f : Nat → β) (a : Nat) (v : β) :
    upd f a v a = v := by simp [upd]

theorem upd_ne {β : Type} (f : Nat → β) (a : Nat) (v : β) (x : Nat)
    (h : x ≠ a) : upd f a v x = f x := by simp [upd, h]

theorem settleCmd_active (s : MState) (c : Nat) (ok : Bool) :
    (settleCmd s c ok).active = s.active := by
  rw [settleCmd]; split
  · split <;> rfl
  · rfl

theorem settleCmd_next (s : MState) (c : Nat) (ok : Bool) :
    (settleCmd s c ok).next = s.next := by
  rw [settleCmd]; split
  · split <;> rfl
  · rfl

theorem settleCmd_released (s : MState) (c : Nat) (ok : Bool) :
    (settleCmd s c ok).released = s.released := by
  rw [settleCmd]; split
  · split <;> rfl
  · rfl

theorem settleCmd_states_ne (s : MState) (c : Nat) (ok : Bool) (d : Nat)
    (h : d ≠ c) : (settleCmd s c ok).states d = s.states d := by
  rw [settleCmd]; split
  · split <;> simp only [upd_ne _ _ _ _ h]
  · rfl

theorem settleCmd_states_stable (s : MState) (c : Nat) (ok : Bool) (d : Nat)
    (h1 : s.states d ≠ CState.none_) (h2 : s.states d ≠ CState.started) :
    (settleCmd s c ok).states d = s.states d := by
  by_cases hcd : d = c
  · rw [hcd] at h1 h2 ⊢
    rw [settleCmd, if_neg (by rintro (h | h) <;> [exact h1 h; exact h2 h])]
  · exact settleCmd_states_ne s c ok d hcd

theorem settleCmd_states_self_none (s : MState) (c : Nat) (ok : Bool)
    (h : s.states c = CState.none_) :
    (settleCmd s c ok).states c =
      (if ok then CState.finished else CState.cancelled) := by
  rw [settleCmd, if_pos (Or.inl h)]
  split <;> simp only [upd_self]

theorem settleCmd_history_self_none (s : MState) (c : Nat) (ok : Bool)
    (h : s.states c = CState.none_) :
    (settleCmd s c ok).history =
      (if ok then s.history ++ [c] else s.history) := by
  rw [settleCmd, if_pos (Or.inl h)]
  split <;> rfl

theorem settleCmd_history_stable (s : MState) (c : Nat) (ok : Bool)
    (h1 : s.states c ≠ CState.none_) (h2 : s.states c ≠ CState.started) :
    (settleCmd s c ok).history = s.history := by
  rw [settleCmd, if_neg (by rintro (h | h) <;> [exact h1 h; exact h2 h])]

theorem settleCmd_count_ne (s : MState) (c : Nat) (ok : Bool) (d : Nat)
    (h : d ≠ c) :
    (settleCmd s c ok).history.count d = s.history.count d := by
  rw [settleCmd]; split
  · split
    · simp [List.count_append, List.count_singleton, h]
    · rfl
  · rfl

theorem settleCmd_resolved_mono (s : MState) (c : Nat) (ok : Bool) (d : Nat)
    (h : s.resolved d = true) : (settleCmd s c ok).resolved d = true := by
  by_cases hcd : d = c
  · rw [hcd]
    rw [settleCmd]; split
    · split <;> simp only [upd_self]
    · simp only [upd_self]
  · rw [settleCmd]; split
    · split <;> simp only [upd_ne _ _ _ _ hcd] <;> exact h
    · simp only [upd_ne _ _ _ _ hcd]; exact h

theorem settleCmd_resolved_self (s : MState) (c : Nat) (ok : Bool) :
    (settleCmd s c ok).resolved c = true := by
  rw [settleCmd]; split
  · split <;> simp only [upd_self]
  · simp only [upd_self]

theorem interruptCmd_active (s : MState) (a : Nat) :
    (interruptCmd s a).active = s.active := by
  rw [interruptCmd]; split <;> rfl

theorem interruptCmd_next (s : MState) (a : Nat) :
    (interruptCmd s a).next = s.next := by
  rw [interruptCmd]; split <;> rfl

theorem interruptCmd_released (s : MState) (a : Nat) :
    (interruptCmd s a).released = s.released := by
  rw [interruptCmd]; split <;> rfl

theorem interruptCmd_history (s : MState) (a : Nat) :
    (interruptCmd s a).history = s.history := by
  rw [interruptCmd]; split <;> rfl

theorem interruptCmd_states_ne (s : MState) (a : Nat) (d : Nat)
    (h : d ≠ a) : (interruptCmd s a).states d = s.states d := by
  rw [interruptCmd]; split
  · simp only [upd_ne _ _ _ _ h]
  · rfl

theorem interruptCmd_states_stable (s : MState) (a : Nat) (d : Nat)
    (h1 : s.states d ≠ CState.none_) (h2 : s.states d ≠ CState.started) :
    (interruptCmd s a).states d = s.states d := by
  by_cases had : d = a
  · rw [had] at h1 h2 ⊢
    rw [interruptCmd, if_neg (by rintro (h | h) <;> [exact h1 h; exact h2 h])]
  · exact interruptCmd_states_ne s a d had

theorem interruptCmd_states_self (s : MState) (a : Nat)
    (h : s.states a = CState.none_ ∨ s.states a = CState.interrupted) :
    (interruptCmd s a).states a = CState.interrupted := by
  rcases h with h | h
  · rw [interruptCmd, if_pos (Or.inl h)]
    exact upd_self _ _ _
  · rw [interruptCmd, if_neg (by rw [h]; rintro (hh | hh) <;> exact CState.noConfusion hh)]
    exact h

theorem interruptCmd_resolved_mono (s : MState) (a : Nat) (d : Nat)
    (h : s.resolved d = true) : (interruptCmd s a).resolved d = true := by
  by_cases had : d = a
  · rw [had]
    rw [interruptCmd]; split
    · simp only [upd_self]
    · exact had ▸ h
  · rw [interruptCmd]; split
    · simp only [upd_ne _ _ _ _ had]; exact h
    · exact h

theorem startNext_states_stable (s : MState) (d : Nat)
    (h1 : s.states d ≠ CState.none_) (h2 : s.states d ≠ CState.started) :
    (startNext s).states d = s.states d := by
  cases hn : s.next with
  | none => simp only [startNext, hn]
  | some c =>
    cases hr : s.released c with
    | none => simp only [startNext, hn, hr]
    | some okd =>
      simp only [startNext, hn, hr]
      exact settleCmd_states_stable _ c okd d h1 h2

theorem startNext_count_stable (s : MState) (d : Nat)
    (h1 : s.states d ≠ CState.none_) (h2 : s.states d ≠ CState.started) :
    (startNext s).history.count d = s.history.count d := by
  cases hn : s.next with
  | none => simp only [startNext, hn]
  | some c =>
    cases hr : s.released c with
    | none => simp only [startNext, hn, hr]
    | some okd =>
      simp only [startNext, hn, hr]
      by_cases hdc : d = c
      · rw [hdc] at h1 h2 ⊢
        rw [settleCmd_history_stable
          { s with active := some c, next := none } c okd h1 h2]
      · exact settleCmd_count_ne _ c okd d hdc

theorem startNext_resolved_mono (s : MState) (d : Nat)
    (h : s.resolved d = true) : (startNext s).resolved d = true := by
  cases hn : s.next with
  | none => simp only [startNext, hn]; exact h
  | some c =>
    cases hr : s.released c with
    | none => simp only [startNext, hn, hr]; exact h
    | some okd =>
      simp only [startNext, hn, hr]
      exact settleCmd_resolved_mono _ c okd d h

theorem settle_then_start_states_stable (s : MState) (c : Nat) (ok : Bool)
    (d : Nat) (h1 : s.states d ≠ CState.none_)
    (h2 : s.states d ≠ CState.started) :
    (startNext { settleCmd s c ok with active := none }).states d =
      s.states d := by
  have e1 : (settleCmd s c ok).states d = s.states d :=
    settleCmd_states_stable s c ok d h1 h2
  have hX1 : ({ settleCmd s c ok with active := none } : MState).states d
      ≠ CState.none_ := by
    show (settleCmd s c ok).states d ≠ CState.none_
    rw [e1]; exact h1
  have hX2 : ({ settleCmd s c ok with active := none } : MState).states d
      ≠ CState.started := by
    show (settleCmd s c ok).states d ≠ CState.started
    rw [e1]; exact h2
  exact (startNext_states_stable _ d hX1 hX2).trans e1

theorem settle_then_start_count_stable (s : MState) (c : Nat) (ok : Bool)
    (d : Nat) (h1 : s.states d ≠ CState.none_)
    (h2 : s.states d ≠ CState.started) :
    (startNext { settleCmd s c ok with active := none }).history.count d =
      s.history.count d := by
  have e1 : (settleCmd s c ok).states d = s.states d :=
    settleCmd_states_stable s c ok d h1 h2
  have hX1 : ({ settleCmd s c ok with active := none } : MState).states d
      ≠ CState.none_ := by
    show (settleCmd s c ok).states d ≠ CState.none_
    rw [e1]; exact h1
  have hX2 : ({ settleCmd s c ok with active := none } : MState).states d
      ≠ CState.started := by
    show (settleCmd s c ok).states d ≠ CState.started
    rw [e1]; exact h2
  have e2 : (settleCmd s c ok).history.count d = s.history.count d := by
    by_cases hdc : d = c
    · rw [hdc] at h1 h2 ⊢
      rw [settleCmd_history_stable s c ok h1 h2]
    · exact settleCmd_count_ne s c ok d hdc
  exact (startNext_count_stable _ d hX1 hX2).trans e2

theorem settle_then_start_resolved_mono (s : MState) (c : Nat) (ok : Bool)
    (d : Nat) (h : s.resolved d = true) :
    (startNext { settleCmd s c ok with active := none }).resolved d = true := by
  exact startNext_resolved_mono _ d (settleCmd_resolved_mono s c ok d h)

theorem upd_true_mono (f : Nat → Bool) (a c : Nat) (h : f c = true) :
    upd f a true c = true := by
  by_cases hca : c = a
  · rw [hca, upd_self]
  · rw [upd_ne _ _ _ _ hca]; exact h

/-- Once a command has left `None` (and the unreachable `Started`), no
event changes its state: terminal states persist. -/
theorem step_states_stable (s : MState) (e : Event) (c : Nat)
    (h1 : s.states c ≠ CState.none_) (h2 : s.states c ≠ CState.started) :
    (step s e).states c = s.states c := by
  cases e with
  | enq j =>
    cases hn : s.next with
    | none =>
      cases ha : s.active with
      | none =>
        simp only [step, hn, ha]
        exact startNext_states_stable _ c h1 h2
      | some a =>
        simp only [step, hn, ha]
        exact interruptCmd_states_stable _ a c h1 h2
    | some d =>
      cases ha : s.active with
      | none =>
        simp only [step, hn, ha]
        exact startNext_states_stable _ c h1 h2
      | some a =>
        simp only [step, hn, ha]
        exact interruptCmd_states_stable _ a c h1 h2
  | rel c' ok =>
    cases ha : s.active with
    | none => simp only [step, ha]
    | some a =>
      simp only [step, ha]
      by_cases hac : a = c'
      · rw [if_pos hac]
        exact settle_then_start_states_stable _ c' ok c h1 h2
      · rw [if_neg hac]

/-- A command that has left `None` gains no further History entries. -/
theorem step_count_stable (s : MState) (e : Event) (c : Nat)
    (h1 : s.states c ≠ CState.none_) (h2 : s.states c ≠ CState.started) :
    (step s e).history.count c = s.history.count c := by
  cases e with
  | enq j =>
    cases hn : s.next with
    | none =>
      cases ha : s.active with
      | none =>
        simp only [step, hn, ha]
        exact startNext_count_stable _ c h1 h2
      | some a =>
        simp only [step, hn, ha]
        rw [interruptCmd_history]
    | some d =>
      cases ha : s.active with
      | none =>
        simp only [step, hn, ha]
        exact startNext_count_stable _ c h1 h2
      | some a =>
        simp only [step, hn, ha]
        rw [interruptCmd_history]
  | rel c' ok =>
    cases ha : s.active with
    | none => simp only [step, ha]
    | some a =>
      simp only [step, ha]
      by_cases hac : a = c'
      · rw [if_pos hac]
        exact settle_then_start_count_stable _ c' ok c h1 h2
      · rw [if_neg hac]

/-- A resolved enqueue promise stays resolved. -/
theorem step_resolved_mono (s : MState) (e : Event) (c : Nat)
    (h : s.resolved c = true) : (step s e).resolved c = true := by
  cases e with
  | enq j =>
    cases hn : s.next with
    | none =>
      cases ha : s.active with
      | none =>
        simp only [step, hn, ha]
        exact startNext_resolved_mono _ c h
      | some a =>
        simp only [step, hn, ha]
        exact interruptCmd_resolved_mono _ a c h
    | some d =>
      cases ha : s.active with
      | none =>
        simp only [step, hn, ha]
        exact startNext_resolved_mono _ c (upd_true_mono _ _ _ h)
      | some a =>
        simp only [step, hn, ha]
        exact interruptCmd_resolved_mono _ a c (upd_true_mono _ _ _ h)
  | rel c' ok =>
    cases ha : s.active with
    | none => simp only [step, ha]; exact h
    | some a =>
      simp only [step, ha]
      by_cases hac : a = c'
      · rw [if_pos hac]
        exact settle_then_start_resolved_mono _ c' ok c h
      · rw [if_neg hac]; exact h

theorem settleCmd_states_self_guard (s : MState) (c : Nat) (ok : Bool)
    (hg : s.states c = CState.none_ ∨ s.states c = CState.started) :
    (settleCmd s c ok).states c =
      (if ok then CState.finished else CState.cancelled) := by
  rw [settleCmd, if_pos hg]
  by_cases hok : ok = true
  · rw [if_pos hok, if_pos hok]; exact upd_self _ _ _
  · rw [if_neg hok, if_neg hok]; exact upd_self _ _ _

theorem settleCmd_history_cases (s : MState) (c : Nat) (ok : Bool) (d : Nat)
    (hd : d ∈ (settleCmd s c ok).history) :
    d ∈ s.history ∨
      (d = c ∧ ok = true ∧
        (s.states c = CState.none_ ∨ s.states c = CState.started)) := by
  rw [settleCmd] at hd
  by_cases hg : s.states c = CState.none_ ∨ s.states c = CState.started
  · rw [if_pos hg] at hd
    by_cases hok : ok = true
    · rw [if_pos hok] at hd
      have hd' : d ∈ s.history ++ [c] := hd
      rcases List.mem_append.mp hd' with hmem | hmem
      · exact Or.inl hmem
      · exact Or.inr ⟨List.mem_singleton.mp hmem, hok, hg⟩
    · rw [if_neg hok] at hd
      exact Or.inl hd
  · rw [if_neg hg] at hd
    exact Or.inl hd

theorem invHist_settleCmd (s : MState) (c : Nat) (ok : Bool)
    (hI : InvHist s) : InvHist (settleCmd s c ok) := by
  intro d hd
  rcases settleCmd_history_cases s c ok d hd with hmem | ⟨hdc, hok, hg⟩
  · have hf := hI d hmem
    have h1 : s.states d ≠ CState.none_ := by
      rw [hf]; exact fun h => CState.noConfusion h
    have h2 : s.states d ≠ CState.started := by
      rw [hf]; exact fun h => CState.noConfusion h
    rw [settleCmd_states_stable s c ok d h1 h2]
    exact hf
  · rw [hdc, settleCmd_states_self_guard s c ok hg, if_pos hok]

theorem invHist_interruptCmd (s : MState) (a : Nat) (hI : InvHist s) :
    InvHist (interruptCmd s a) := by
  intro d hd
  rw [interruptCmd_history] at hd
  have hf := hI d hd
  have h1 : s.states d ≠ CState.none_ := by
    rw [hf]; exact fun h => CState.noConfusion h
  have h2 : s.states d ≠ CState.started := by
    rw [hf]; exact fun h => CState.noConfusion h
  rw [interruptCmd_states_stable s a d h1 h2]
  exact hf

theorem invHist_startNext (s : MState) (hI : InvHist s) :
    InvHist (startNext s) := by
  cases hn : s.next with
  | none => simp only [startNext, hn]; exact hI
  | some c =>
    cases hr : s.released c with
    | none =>
      simp only [startNext, hn, hr]
      exact fun d hd => hI d hd
    | some okd =>
      simp only [startNext, hn, hr]
      exact fun d hd => invHist_settleCmd
        { s with active := some c, next := none } c okd
        (fun d' hd' => hI d' hd') d hd

theorem invHist_step (s : MState) (e : Event) (hI : InvHist s) :
    InvHist (step s e) := by
  cases e with
  | enq j =>
    cases hn : s.next with
    | none =>
      cases ha : s.active with
      | none =>
        simp only [step, hn, ha]
        exact invHist_startNext _ (fun d hd => hI d hd)
      | some a =>
        simp only [step, hn, ha]
        exact invHist_interruptCmd _ a (fun d hd => hI d hd)
    | some d0 =>
      cases ha : s.active with
      | none =>
        simp only [step, hn, ha]
        exact invHist_startNext _ (fun d hd => hI d hd)
      | some a =>
        simp only [step, hn, ha]
        exact invHist_interruptCmd _ a (fun d hd => hI d hd)
  | rel c' ok =>
    cases ha : s.active with
    | none => simp only [step, ha]; exact fun d hd => hI d hd
    | some a =>
      simp only [step, ha]
      by_cases hac : a = c'
      · rw [if_pos hac]
        refine invHist_startNext _ ?_
        exact fun d hd => invHist_settleCmd
          { s with active := some a, released := upd s.released c' (some ok) }
          c' ok (fun d' hd' => hI d' hd') d hd
      · rw [if_neg hac]
        exact fun d hd => hI d hd

theorem invRes_settleCmd (s : MState) (c : Nat) (ok : Bool)
    (hI : InvRes s) : InvRes (settleCmd s c ok) := by
  intro d hterm
  by_cases hdc : d = c
  · rw [hdc]; exact settleCmd_resolved_self s c ok
  · rw [settleCmd_states_ne s c ok d hdc] at hterm
    exact settleCmd_resolved_mono s c ok d (hI d hterm)

theorem invRes_interruptCmd (s : MState) (a : Nat) (hI : InvRes s) :
    InvRes (interruptCmd s a) := by
  intro d hterm
  by_cases hda : d = a
  · rw [hda] at hterm ⊢
    by_cases hg : s.states a = CState.none_ ∨ s.states a = CState.started
    · rw [interruptCmd, if_pos hg]
      exact upd_self _ _ _
    · rw [interruptCmd, if_neg hg] at hterm ⊢
      exact hI a hterm
  · rw [interruptCmd_states_ne s a d hda] at hterm
    exact interruptCmd_resolved_mono s a d (hI d hterm)

theorem invRes_startNext (s : MState) (hI : InvRes s) :
    InvRes (startNext s) := by
  cases hn : s.next with
  | none => simp only [startNext, hn]; exact hI
  | some c =>
    cases hr : s.released c with
    | none =>
      simp only [startNext, hn, hr]
      exact fun d hterm => hI d hterm
    | some okd =>
      simp only [startNext, hn, hr]
      exact fun d hterm => invRes_settleCmd
        { s with active := some c, next := none } c okd
        (fun d' ht' => hI d' ht') d hterm

theorem invRes_step (s : MState) (e : Event) (hI : InvRes s) :
    InvRes (step s e) := by
  cases e with
  | enq j =>
    cases hn : s.next with
    | none =>
      cases ha : s.active with
      | none =>
        simp only [step, hn, ha]
        exact invRes_startNext _ (fun d ht => hI d ht)
      | some a =>
        simp only [step, hn, ha]
        exact invRes_interruptCmd _ a (fun d ht => hI d ht)
    | some d0 =>
      cases ha : s.active with
      | none =>
        simp only [step, hn, ha]
        exact invRes_startNext _
          (fun d ht => upd_true_mono _ _ _ (hI d ht))
      | some a =>
        simp only [step, hn, ha]
        exact invRes_interruptCmd _ a
          (fun d ht => upd_true_mono _ _ _ (hI d ht))
  | rel c' ok =>
    cases ha : s.active with
    | none => simp only [step, ha]; exact fun d ht => hI d ht
    | some a =>
      simp only [step, ha]
      by_cases hac : a = c'
      · rw [if_pos hac]
        refine invRes_startNext _ ?_
        exact fun d ht => invRes_settleCmd
          { s with active := some a, released := upd s.released c' (some ok) }
          c' ok (fun d' ht' => hI d' ht') d ht
      · rw [if_neg hac]
        exact fun d ht => hI d ht

theorem invExec_enq_interrupt (s1 : MState) (a j : Nat)
    (h1 : s1.active = some a) (h2 : s1.next = some j) (haj : a ≠ j)
    (hsa : s1.states a = CState.none_ ∨ s1.states a = CState.interrupted)
    (hsj : s1.states j = CState.none_) :
    InvExec (interruptCmd s1 a) := by
  constructor
  · intro a' ha'
    rw [interruptCmd_active, h1] at ha'
    rw [← Option.some_inj.mp ha']
    right
    exact interruptCmd_states_self s1 a hsa
  · intro d hd
    rw [interruptCmd_next, h2] at hd
    have hdj : d = j := (Option.some_inj.mp hd).symm
    refine ⟨?_, ?_⟩
    · rw [hdj, interruptCmd_states_ne s1 a j (Ne.symm haj)]
      exact hsj
    · rw [interruptCmd_active, h1, hdj]
      intro hh
      exact haj (Option.some_inj.mp hh)

theorem invExec_startNext_fresh (s1 : MState) (j : Nat)
    (h2 : s1.next = some j) (hsj : s1.states j = CState.none_) :
    InvExec (startNext s1) := by
  cases hr : s1.released j with
  | none =>
    simp only [startNext, h2, hr]
    constructor
    · intro a' ha'
      have : a' = j := (Option.some_inj.mp ha').symm
      rw [this]
      exact Or.inl hsj
    · intro d hd
      exact Option.noConfusion hd
  | some okj =>
    simp only [startNext, h2, hr]
    constructor
    · intro a' ha'
      exact Option.noConfusion ha'
    · intro d hd
      simp only [settleCmd_next] at hd
      exact Option.noConfusion hd

/-- A well-formed enqueue or any release preserves the scheduler
discipline. -/
theorem invExec_step (s : MState) (e : Event) (hI : InvExec s)
    (hok : eventOk s e = true) : InvExec (step s e) := by
  obtain ⟨hIa, hIn⟩ := hI
  cases e with
  | enq j =>
    have hj : s.states j = CState.none_ ∧ s.active ≠ some j :=
      of_decide_eq_true hok
    cases ha : s.active with
    | some a =>
      have haj : a ≠ j := fun hh => hj.2 (by rw [ha, hh])
      have hsa := hIa a ha
      cases hn : s.next with
      | none =>
        simp only [step, hn, ha]
        exact invExec_enq_interrupt _ a j rfl rfl haj hsa hj.1
      | some d0 =>
        simp only [step, hn, ha]
        exact invExec_enq_interrupt _ a j rfl rfl haj hsa hj.1
    | none =>
      cases hn : s.next with
      | none =>
        simp only [step, hn, ha]
        exact invExec_startNext_fresh _ j rfl hj.1
      | some d0 =>
        simp only [step, hn, ha]
        exact invExec_startNext_fresh _ j rfl hj.1
  | rel c' ok =>
    cases ha : s.active with
    | none =>
      simp only [step, ha]
      constructor
      · intro a' ha'
        exact Option.noConfusion ha'
      · intro d hd
        have hIn' := hIn d hd
        exact ⟨hIn'.1, fun hh => Option.noConfusion hh⟩
    | some a =>
      simp only [step, ha]
      by_cases hac : a = c'
      · rw [if_pos hac]
        cases hn : s.next with
        | none =>
          simp only [startNext, settleCmd_next, hn]
          constructor
          · intro a' ha'
            exact Option.noConfusion ha'
          · intro d hd
            exact Option.noConfusion hd
        | some d0 =>
          have hIn' := hIn d0 hn
          have hd0a : a ≠ d0 := fun hh => hIn'.2 (by rw [ha, hh])
          have hd0c : d0 ≠ c' := fun hh => hd0a (by rw [← hh] at hac; exact hac)
          have hrel : upd s.released c' (some ok) d0 = s.released d0 :=
            upd_ne _ _ _ _ hd0c
          cases hr : s.released d0 with
          | none =>
            simp only [startNext, settleCmd_next, settleCmd_released, hn,
              hrel, hr]
            constructor
            · intro a' ha'
              have : a' = d0 := (Option.some_inj.mp ha').symm
              rw [this]
              left
              rw [settleCmd_states_ne _ c' ok d0 hd0c]
              exact hIn'.1
            · intro d hd
              exact Option.noConfusion hd
          | some okd =>
            simp only [startNext, settleCmd_next, settleCmd_released, hn,
              hrel, hr]
            constructor
            · intro a' ha'
              exact Option.noConfusion ha'
            · intro d hd
              simp only [settleCmd_next] at hd
              exact Option.noConfusion hd
      · rw [if_neg hac]
        constructor
        · intro a' ha'
          have : a' = a := (Option.some_inj.mp ha').symm
          rw [this]
          exact hIa a ha
        · intro d hd
          have hIn' := hIn d hd
          refine ⟨hIn'.1, ?_⟩
          intro hh
          exact hIn'.2 (by rw [ha]; exact hh)

/-- A command displaced from the pending slot stays dropped (state `None`,
referenced by neither slot), as long as it is not re-enqueued. -/
theorem dropped_step (s : MState) (e : Event) (c : Nat) (hD : Dropped c s)
    (hne : e ≠ Event.enq c) : Dropped c (step s e) := by
  obtain ⟨hDs, hDa, hDn⟩ := hD
  cases e with
  | enq j =>
    have hjc : j ≠ c := fun hh => hne (by rw [hh])
    cases ha : s.active with
    | some a =>
      have hac : a ≠ c := fun hh => hDa (by rw [ha, hh])
      cases hn : s.next with
      | none =>
        simp only [step, hn, ha]
        refine ⟨?_, ?_, ?_⟩
        · rw [interruptCmd_states_ne _ a c (Ne.symm hac)]
          exact hDs
        · rw [interruptCmd_active]
          intro hh
          exact hac (Option.some_inj.mp hh)
        · rw [interruptCmd_next]
          intro hh
          exact hjc (Option.some_inj.mp hh)
      | some d0 =>
        simp only [step, hn, ha]
        refine ⟨?_, ?_, ?_⟩
        · rw [interruptCmd_states_ne _ a c (Ne.symm hac)]
          exact hDs
        · rw [interruptCmd_active]
          intro hh
          exact hac (Option.some_inj.mp hh)
        · rw [interruptCmd_next]
          intro hh
          exact hjc (Option.some_inj.mp hh)
    | none =>
      cases hn : s.next with
      | none =>
        simp only [step, hn, ha]
        cases hr : s.released j with
        | none =>
          simp only [startNext, hr]
          exact ⟨hDs, fun hh => hjc (Option.some_inj.mp hh),
            fun hh => Option.noConfusion hh⟩
        | some okj =>
          simp only [startNext, hr]
          refine ⟨?_, ?_, ?_⟩
          · simp only [settleCmd_states_ne _ j okj c (Ne.symm hjc)]
            exact hDs
          · intro hh
            exact Option.noConfusion hh
          · intro hh
            simp only [settleCmd_next] at hh
            exact Option.noConfusion hh
      | some d0 =>
        simp only [step, hn, ha]
        cases hr : s.released j with
        | none =>
          simp only [startNext, hr]
          exact ⟨hDs, fun hh => hjc (Option.some_inj.mp hh),
            fun hh => Option.noConfusion hh⟩
        | some okj =>
          simp only [startNext, hr]
          refine ⟨?_, ?_, ?_⟩
          · simp only [settleCmd_states_ne _ j okj c (Ne.symm hjc)]
            exact hDs
          · intro hh
            exact Option.noConfusion hh
          · intro hh
            simp only [settleCmd_next] at hh
            exact Option.noConfusion hh
  | rel c' ok =>
    cases ha : s.active with
    | none =>
      simp only [step, ha]
      exact ⟨hDs, fun hh => Option.noConfusion hh, hDn⟩
    | some a =>
      have hac : a ≠ c := fun hh => hDa (by rw [ha, hh])
      simp only [step, ha]
      by_cases haeq : a = c'
      · rw [if_pos haeq]
        have hcc' : c ≠ c' := fun hh => hac (haeq.trans hh.symm)
        cases hn : s.next with
        | none =>
          simp only [startNext, settleCmd_next, hn]
          refine ⟨?_, ?_, ?_⟩
          · simp only [settleCmd_states_ne _ c' ok c hcc']
            exact hDs
          · intro hh
            exact Option.noConfusion hh
          · intro hh
            exact Option.noConfusion hh
        | some d0 =>
          have hd0c : d0 ≠ c := fun hh => hDn (by rw [hn, hh])
          cases hrv : upd s.released c' (some ok) d0 with
          | none =>
            simp only [startNext, settleCmd_next, settleCmd_released, hn, hrv]
            refine ⟨?_, ?_, ?_⟩
            · simp only [settleCmd_states_ne _ c' ok c hcc']
              exact hDs
            · intro hh
              exact hd0c (Option.some_inj.mp hh)
            · intro hh
              exact Option.noConfusion hh
          | some okd =>
            simp only [startNext, settleCmd_next, settleCmd_released, hn, hrv]
            refine ⟨?_, ?_, ?_⟩
            · simp only [settleCmd_states_ne _ d0 okd c (Ne.symm hd0c),
                settleCmd_states_ne _ c' ok c hcc']
              exact hDs
            · intro hh
              exact Option.noConfusion hh
            · intro hh
              simp only [settleCmd_next] at hh
              exact Option.noConfusion hh
      · rw [if_neg haeq]
        exact ⟨hDs, fun hh => hac (Option.some_inj.mp hh), hDn⟩

/-- Enqueuing while a command is active immediately flips the active
command to `Interrupted` (spec §4.3 step 1), synchronously. -/
theorem enq_interrupts_active (s : MState) (a j : Nat)
    (ha : s.active = some a) (hI : InvExec s) :
    (step s (Event.enq j)).states a = CState.interrupted := by
  have hsa := hI.1 a ha
  cases hn : s.next with
  | none =>
    simp only [step, hn, ha]
    exact interruptCmd_states_self _ a hsa
  | some d0 =>
    simp only [step, hn, ha]
    exact interruptCmd_states_self _ a hsa

/-- Enqueuing while another command occupies the pending slot displaces it:
the displaced command never starts and stays `None`. -/
theorem enq_drops_pending (s : MState) (c j : Nat)
    (hn : s.next = some c) (hna : s.active ≠ some c) (hcj : c ≠ j)
    (hI : InvExec s) : Dropped c (step s (Event.enq j)) := by
  have hsc := (hI.2 c hn).1
  cases ha : s.active with
  | some a =>
    have hac : a ≠ c := fun hh => hna (by rw [ha, hh])
    simp only [step, hn, ha]
    refine ⟨?_, ?_, ?_⟩
    · rw [interruptCmd_states_ne _ a c (Ne.symm hac)]
      exact hsc
    · rw [interruptCmd_active]
      intro hh
      exact hac (Option.some_inj.mp hh)
    · rw [interruptCmd_next]
      intro hh
      exact hcj (Option.some_inj.mp hh).symm
  | none =>
    simp only [step, hn, ha]
    cases hr : s.released j with
    | none =>
      simp only [startNext, hr]
      exact ⟨hsc, fun hh => hcj (Option.some_inj.mp hh).symm,
        fun hh => Option.noConfusion hh⟩
    | some okj =>
      simp only [startNext, hr]
      refine ⟨?_, ?_, ?_⟩
      · simp only [settleCmd_states_ne _ j okj c hcj]
        exact hsc
      · intro hh
        exact Option.noConfusion hh
      · intro hh
        simp only [settleCmd_next] at hh
        exact Option.noConfusion hh

/-- The promise of a command displaced from the pending slot resolves. -/
theorem enq_resolves_pending (s : MState) (c j : Nat)
    (hn : s.next = some c) :
    (step s (Event.enq j)).resolved c = true := by
  cases ha : s.active with
  | some a =>
    simp only [step, hn, ha]
    exact interruptCmd_resolved_mono _ a c (upd_self _ _ _)
  | none =>
    simp only [step, hn, ha]
    exact startNext_resolved_mono _ c (upd_self _ _ _)

theorem settle_then_start_self (s1 : MState) (c : Nat) (ok : Bool)
    (hst : s1.states c = CState.none_) :
    (startNext { settleCmd s1 c ok with active := none }).states c =
      (if ok then CState.finished else CState.cancelled) ∧
    (startNext { settleCmd s1 c ok with active := none }).history.count c =
      s1.history.count c + (if ok then 1 else 0) := by
  cases ok with
  | true =>
    have e1 : (settleCmd s1 c true).states c = CState.finished := by
      rw [settleCmd_states_self_none s1 c true hst]; rfl
    have e2 : (settleCmd s1 c true).history = s1.history ++ [c] := by
      rw [settleCmd_history_self_none s1 c true hst]; rfl
    have hne1 : ({ settleCmd s1 c true with active := none } : MState).states c
        ≠ CState.none_ := by
      show (settleCmd s1 c true).states c ≠ CState.none_
      rw [e1]; exact fun h => CState.noConfusion h
    have hne2 : ({ settleCmd s1 c true with active := none } : MState).states c
        ≠ CState.started := by
      show (settleCmd s1 c true).states c ≠ CState.started
      rw [e1]; exact fun h => CState.noConfusion h
    constructor
    · show (startNext _).states c = CState.finished
      rw [startNext_states_stable _ c hne1 hne2]
      exact e1
    · show (startNext _).history.count c = s1.history.count c + 1
      rw [startNext_count_stable _ c hne1 hne2]
      show (settleCmd s1 c true).history.count c = _
      rw [e2, List.count_append]
      simp
  | false =>
    have e1 : (settleCmd s1 c false).states c = CState.cancelled := by
      rw [settleCmd_states_self_none s1 c false hst]; rfl
    have e2 : (settleCmd s1 c false).history = s1.history := by
      rw [settleCmd_history_self_none s1 c false hst]; rfl
    have hne1 : ({ settleCmd s1 c false with active := none } : MState).states c
        ≠ CState.none_ := by
      show (settleCmd s1 c false).states c ≠ CState.none_
      rw [e1]; exact fun h => CState.noConfusion h
    have hne2 : ({ settleCmd s1 c false with active := none } : MState).states c
        ≠ CState.started := by
      show (settleCmd s1 c false).states c ≠ CState.started
      rw [e1]; exact fun h => CState.noConfusion h
    constructor
    · show (startNext _).states c = CState.cancelled
      rw [startNext_states_stable _ c hne1 hne2]
      exact e1
    · show (startNext _).history.count c = s1.history.count c + 0
      rw [startNext_count_stable _ c hne1 hne2]
      show (settleCmd s1 c false).history.count c = _
      rw [e2]
      rfl

/-- A release of the active, still-`None` command settles it: success gives
`Finished` and appends exactly one History entry, an error gives
`Cancelled` and appends none (spec §4.3 step 5). -/
theorem rel_active_settles (s : MState) (c : Nat) (ok : Bool)
    (ha : s.active = some c) (hst : s.states c = CState.none_) :
    (step s (Event.rel c ok)).states c =
      (if ok then CState.finished else CState.cancelled) ∧
    (step s (Event.rel c ok)).history.count c =
      s.history.count c + (if ok then 1 else 0) := by
  simp only [step, ha]
  rw [if_pos trivial]
  exact settle_then_start_self
    { s with active := some c, released := upd s.released c (some ok) }
    c ok hst

/-- From a quiescent executor, an enqueue of an unreleased command makes it
active immediately. -/
theorem enq_quiescent (s : MState) (j : Nat) (ha : s.active = none)
    (hn : s.next = none) (hr : s.released j = none) :
    step s (Event.enq j) = { s with active := some j } := by
  have : { s with active := some j, next := none } =
      { s with active := some j } := by
    rw [hn]
  rw [← this]
  simp only [step, hn, ha, startNext, hr]

theorem foldl_append_events (xs ys : List Event) (s : MState) :
    (xs ++ ys).foldl step s = ys.foldl step (xs.foldl step s) := by
  rw [List.foldl_append]

/-- Terminal (and any non-`None`) states persist along any run. -/
theorem states_stable_run (es : List Event) (c : Nat) :
    ∀ s : MState, s.states c ≠ CState.none_ → s.states c ≠ CState.started →
    (es.foldl step s).states c = s.states c := by
  induction es with
  | nil => intro s _ _; rfl
  | cons e rest ih =>
    intro s h1 h2
    have he := step_states_stable s e c h1 h2
    rw [List.foldl_cons,
      ih (step s e) (by rw [he]; exact h1) (by rw [he]; exact h2), he]

/-- A command that has left `None` gains no History entries along any
run. -/
theorem count_stable_run (es : List Event) (c : Nat) :
    ∀ s : MState, s.states c ≠ CState.none_ → s.states c ≠ CState.started →
    (es.foldl step s).history.count c = s.history.count c := by
  induction es with
  | nil => intro s _ _; rfl
  | cons e rest ih =>
    intro s h1 h2
    have he := step_states_stable s e c h1 h2
    rw [List.foldl_cons,
      ih (step s e) (by rw [he]; exact h1) (by rw [he]; exact h2),
      step_count_stable s e c h1 h2]

/-- A resolved promise stays resolved along any run. -/
theorem resolved_stable_run (es : List Event) (c : Nat) :
    ∀ s : MState, s.resolved c = true →
    (es.foldl step s).resolved c = true := by
  induction es with
  | nil => intro s h; exact h
  | cons e rest ih =>
    intro s h
    rw [List.foldl_cons]
    exact ih (step s e) (step_resolved_mono s e c h)

theorem invHist_run (es : List Event) :
    ∀ s : MState, InvHist s → InvHist (es.foldl step s) := by
  induction es with
  | nil => intro s h; exact h
  | cons e rest ih =>
    intro s h
    rw [List.foldl_cons]
    exact ih (step s e) (invHist_step s e h)

theorem invRes_run (es : List Event) :
    ∀ s : MState, InvRes s → InvRes (es.foldl step s) := by
  induction es with
  | nil => intro s h; exact h
  | cons e rest ih =>
    intro s h
    rw [List.foldl_cons]
    exact ih (step s e) (invRes_step s e h)

theorem invExec_run (es : List Event) :
    ∀ s : MState, InvExec s → wfEvents s es = true →
    InvExec (es.foldl step s) := by
  induction es with
  | nil => intro s h _; exact h
  | cons e rest ih =>
    intro s h hwf
    rw [wfEvents, Bool.and_eq_true] at hwf
    rw [List.foldl_cons]
    exact ih (step s e) (invExec_step s e h hwf.1) hwf.2

theorem dropped_run (es : List Event) (c : Nat) :
    ∀ s : MState, Dropped c s → Event.enq c ∉ es →
    Dropped c (es.foldl step s) := by
  induction es with
  | nil => intro s h _; exact h
  | cons e rest ih =>
    intro s h hnotin
    rw [List.mem_cons, not_or] at hnotin
    rw [List.foldl_cons]
    exact ih (step s e) (dropped_step s e c h (Ne.symm hnotin.1)) hnotin.2

theorem wfEvents_append (xs ys : List Event) :
    ∀ s : MState, wfEvents s (xs ++ ys) = true →
    wfEvents s xs = true ∧ wfEvents (xs.foldl step s) ys = true := by
  induction xs with
  | nil => intro s h; exact ⟨rfl, h⟩
  | cons x xs ih =>
    intro s h
    rw [List.cons_append, wfEvents, Bool.and_eq_true] at h
    obtain ⟨ha, hb⟩ := ih (step s x) h.2
    refine ⟨?_, ?_⟩
    · rw [wfEvents, Bool.and_eq_true]
      exact ⟨h.1, ha⟩
    · rw [List.foldl_cons]
      exact hb

theorem invHist_initState : InvHist initState :=
  fun c hc => absurd hc (List.not_mem_nil c)

theorem invRes_initState : InvRes initState :=
  fun _ ht => Bool.noConfusion ht

theorem invExec_initState : InvExec initState :=
  ⟨fun _ h => Option.noConfusion h, fun _ h => Option.noConfusion h⟩

end CmdExec

namespace CmdExec

/-- C1 (amended): in any well-formed run, a command that is superseded — a
newer, distinct command is enqueued while it is still pending (in the
Executor's slot) or active — and is never re-enqueued ends in state
`Interrupted` (when it was active at supersession) or remains in `None`
(when it was still pending and never started); consequently only the last
enqueued command can ever reach `Finished` or `Cancelled`.  The original
claim said every superseded command reaches `Interrupted`, which the
pending case refutes. -/
theorem superseded_command_interrupted_or_none
    (es xs ys : List Event) (j c : Nat)
    (hsplit : es = xs ++ Event.enq j :: ys)
    (hwf : wfEvents initState es = true)
    (hsup : (run xs).active = some c ∨ (run xs).next = some c)
    (hne : j ≠ c)
    (honce : Event.enq c ∉ ys) :
    (run es).states c = CState.interrupted ∨
    (run es).states c = CState.none_ := by
  subst hsplit
  obtain ⟨hwfxs, hwfrest⟩ :=
    wfEvents_append xs (Event.enq j :: ys) initState hwf
  have hIxs : InvExec (run xs) := invExec_run xs initState invExec_initState hwfxs
  have hruneq : run (xs ++ Event.enq j :: ys) =
      ys.foldl step (step (run xs) (Event.enq j)) := by
    rw [run, List.foldl_append, List.foldl_cons]
    rfl
  by_cases hactive : (run xs).active = some c
  · left
    rw [hruneq]
    have hi : (step (run xs) (Event.enq j)).states c = CState.interrupted :=
      enq_interrupts_active (run xs) c j hactive hIxs
    rw [states_stable_run ys c _
      (by rw [hi]; exact fun h => CState.noConfusion h)
      (by rw [hi]; exact fun h => CState.noConfusion h), hi]
  · have hnext : (run xs).next = some c := by
      rcases hsup with h | h
      · exact absurd h hactive
      · exact h
    right
    rw [hruneq]
    have hD : Dropped c (step (run xs) (Event.enq j)) :=
      enq_drops_pending (run xs) c j hnext hactive (fun hh => hne hh.symm) hIxs
    exact (dropped_run ys c _ hD honce).1

theorem superseded_command_interrupted_or_none_witness :
    (run sEvents).states 1 = CState.interrupted ∨
    (run sEvents).states 1 = CState.none_ :=
  superseded_command_interrupted_or_none sEvents [Event.enq 1]
    [Event.enq 3, Event.rel 1 false, Event.rel 2 true, Event.rel 3 true] 2 1
    rfl (by decide) (Or.inl (by decide)) (by decide) (by decide)

/-- C1 counterexample: in the three-command test scenario command 2 is
pending in the Executor's slot when command 3 is enqueued (so it is
superseded and is not the last command), yet it never reaches
`Interrupted` — it stays `None` for the whole run, refuting "every command
except the last reaches terminal state Interrupted". -/
theorem pending_superseded_stays_none_cex :
    (run [Event.enq 1, Event.enq 2]).next = some 2 ∧
    (run sEvents).states 2 ≠ CState.interrupted ∧
    (run sEvents).states 2 = CState.none_ := by decide

/-- C2: the concrete three-command scenario of the test `enqueue cancels
active commands and executes the most recent`: after the three immediate
enqueues, command 1 is `Interrupted` and commands 2 and 3 are `None`;
after command 1's effect rejects and commands 2 and 3's effects resolve,
command 1 stays `Interrupted`, command 2 stays `None` (superseded before
starting) and command 3 is `Finished`. -/
theorem three_commands_scenario :
    ((run [Event.enq 1, Event.enq 2, Event.enq 3]).states 1 =
        CState.interrupted ∧
     (run [Event.enq 1, Event.enq 2, Event.enq 3]).states 2 = CState.none_ ∧
     (run [Event.enq 1, Event.enq 2, Event.enq 3]).states 3 = CState.none_) ∧
    ((run sEvents).states 1 = CState.interrupted ∧
     (run sEvents).states 2 = CState.none_ ∧
     (run sEvents).states 3 = CState.finished) := by decide

/-- C3 (amended): a command whose effect settles while it is the active,
non-superseded command (still `None`) reaches `Finished` with exactly one
History entry on success, and `Cancelled` with zero History entries on
rejection.  The original claim omitted "not superseded" in the rejection
branch; a superseded command whose effect rejects stays `Interrupted`
instead of `Cancelled`. -/
theorem settle_state_history (es xs ys : List Event) (c : Nat) (ok : Bool)
    (hsplit : es = xs ++ Event.rel c ok :: ys)
    (hactive : (run xs).active = some c)
    (hnone : (run xs).states c = CState.none_) :
    (run es).states c = (if ok then CState.finished else CState.cancelled) ∧
    (run es).history.count c = (if ok then 1 else 0) := by
  subst hsplit
  have hIH : InvHist (run xs) := invHist_run xs initState invHist_initState
  have hcount0 : (run xs).history.count c = 0 := by
    rw [List.count_eq_zero]
    intro hmem
    have hf := hIH c hmem
    rw [hnone] at hf
    exact CState.noConfusion hf
  have hruneq : run (xs ++ Event.rel c ok :: ys) =
      ys.foldl step (step (run xs) (Event.rel c ok)) := by
    rw [run, List.foldl_append, List.foldl_cons]
    rfl
  obtain ⟨hset, hcnt⟩ := rel_active_settles (run xs) c ok hactive hnone
  have hterm1 : (step (run xs) (Event.rel c ok)).states c ≠ CState.none_ := by
    rw [hset]; cases ok <;> exact fun h => CState.noConfusion h
  have hterm2 : (step (run xs) (Event.rel c ok)).states c
      ≠ CState.started := by
    rw [hset]; cases ok <;> exact fun h => CState.noConfusion h
  constructor
  · rw [hruneq, states_stable_run ys c _ hterm1 hterm2, hset]
  · rw [hruneq, count_stable_run ys c _ hterm1 hterm2, hcnt, hcount0,
      Nat.zero_add]

theorem settle_state_history_witness :
    ((run [Event.enq 1, Event.rel 1 true]).states 1 =
      (if true then CState.finished else CState.cancelled)) ∧
    (run [Event.enq 1, Event.rel 1 true]).history.count 1 =
      (if true then 1 else 0) :=
  settle_state_history [Event.enq 1, Event.rel 1 true] [Event.enq 1] [] 1
    true rfl (by decide) (by decide)

/-- C3 counterexample: in the three-command scenario command 1's effect
rejects (`Event.rel 1 false` occurs), yet command 1 does not reach
`Cancelled` — it was superseded and stays `Interrupted`, refuting the
unconditional "if its effect routine rejects, the command reaches terminal
state Cancelled". -/
theorem rejected_interrupted_not_cancelled_cex :
    (Event.rel 1 false) ∈ sEvents ∧
    (run sEvents).states 1 ≠ CState.cancelled ∧
    (run sEvents).states 1 = CState.interrupted := by decide

/-- C4 (amended): the promise returned by `enqueue` resolves — never
rejects, a rejection is not even representable at this layer, so errors of
the effect routine are observable only through command state — once the
command reaches a terminal state, and also when the command is superseded
before starting, in which case it resolves although the command stays in
the non-terminal state `None`.  The original claim, that resolution
happens only once the command is terminal, is refuted by the
superseded-before-start case. -/
theorem enqueue_promise_resolves (es : List Event) :
    (∀ c, isTerminal ((run es).states c) = true →
      (run es).resolved c = true) ∧
    (∀ xs j ys c, es = xs ++ Event.enq j :: ys → (run xs).next = some c →
      (run es).resolved c = true) := by
  constructor
  · intro c hterm
    exact invRes_run es initState invRes_initState c hterm
  · intro xs j ys c hsplit hnext
    subst hsplit
    have hres : (step (run xs) (Event.enq j)).resolved c = true :=
      enq_resolves_pending (run xs) c j hnext
    have hruneq : run (xs ++ Event.enq j :: ys) =
        ys.foldl step (step (run xs) (Event.enq j)) := by
      rw [run, List.foldl_append, List.foldl_cons]
      rfl
    rw [hruneq]
    exact resolved_stable_run ys c _ hres

theorem enqueue_promise_resolves_witness :
    (run sEvents).resolved 1 = true ∧ (run sEvents).resolved 2 = true :=
  ⟨(enqueue_promise_resolves sEvents).1 1 (by decide),
   (enqueue_promise_resolves sEvents).2 [Event.enq 1, Event.enq 2] 3
     [Event.rel 1 false, Event.rel 2 true, Event.rel 3 true] 2 rfl
     (by decide)⟩

/-- C4 counterexample: command 2's enqueue promise is resolved at the end
of the three-command scenario although command 2 never reached a terminal
state (it stays `None`), refuting "the promise resolves once the command
has reached a terminal state". -/
theorem promise_resolved_before_terminal_cex :
    (run sEvents).resolved 2 = true ∧
    isTerminal ((run sEvents).states 2) = false := by decide

end CmdExec

namespace CmdExec

/-- Full-state effect of releasing the active, still-`None` command when
the pending slot is empty. -/
theorem rel_active_settles_eq (s : MState) (c : Nat) (ok : Bool)
    (ha : s.active = some c) (hst : s.states c = CState.none_)
    (hn : s.next = none) :
    step s (Event.rel c ok) =
      { s with
        states := upd s.states c
          (if ok then CState.finished else CState.cancelled),
        active := none,
        released := upd s.released c (some ok),
        resolved := upd s.resolved c true,
        history := if ok then s.history ++ [c] else s.history } := by
  cases ok with
  | true => simp [step, ha, startNext, settleCmd, hst, hn]
  | false => simp [step, ha, startNext, settleCmd, hst, hn]

/-- C5: a command whose effect throws does not abort the Executor or block
the next command: from a quiescent executor, enqueue command `a` (its
effect rejects), await it, then enqueue command `b` (its effect resolves)
and await it — `a` ends `Cancelled` and `b` still executes and ends
`Finished`. -/
theorem failing_command_not_blocking (xs : List Event) (a b : Nat)
    (hq1 : (run xs).active = none) (hq2 : (run xs).next = none)
    (hsa : (run xs).states a = CState.none_)
    (hsb : (run xs).states b = CState.none_)
    (hra : (run xs).released a = none) (hrb : (run xs).released b = none)
    (hab : a ≠ b) :
    (run (xs ++ [Event.enq a, Event.rel a false, Event.enq b,
      Event.rel b true])).states a = CState.cancelled ∧
    (run (xs ++ [Event.enq a, Event.rel a false, Event.enq b,
      Event.rel b true])).states b = CState.finished := by
  have hruneq : run (xs ++ [Event.enq a, Event.rel a false, Event.enq b,
      Event.rel b true]) =
      [Event.enq a, Event.rel a false, Event.enq b,
        Event.rel b true].foldl step (run xs) := by
    rw [run, List.foldl_append]
    rfl
  have e1 : step (run xs) (Event.enq a) = { run xs with active := some a } :=
    enq_quiescent (run xs) a hq1 hq2 hra
  have e2 : step { run xs with active := some a } (Event.rel a false) =
      { run xs with
        states := upd (run xs).states a CState.cancelled,
        active := none,
        released := upd (run xs).released a (some false),
        resolved := upd (run xs).resolved a true } :=
    rel_active_settles_eq { run xs with active := some a } a false rfl hsa hq2
  have e3 : step { run xs with
        states := upd (run xs).states a CState.cancelled,
        active := none,
        released := upd (run xs).released a (some false),
        resolved := upd (run xs).resolved a true } (Event.enq b) =
      { run xs with
        states := upd (run xs).states a CState.cancelled,
        active := some b,
        released := upd (run xs).released a (some false),
        resolved := upd (run xs).resolved a true } :=
    enq_quiescent _ b rfl hq2
      ((upd_ne (run xs).released a (some false) b (Ne.symm hab)).trans hrb)
  have e4 : step { run xs with
        states := upd (run xs).states a CState.cancelled,
        active := some b,
        released := upd (run xs).released a (some false),
        resolved := upd (run xs).resolved a true } (Event.rel b true) =
      { run xs with
        states := upd (upd (run xs).states a CState.cancelled) b
          CState.finished,
        active := none,
        released := upd (upd (run xs).released a (some false)) b (some true),
        resolved := upd (upd (run xs).resolved a true) b true,
        history := (run xs).history ++ [b] } :=
    rel_active_settles_eq _ b true rfl
      ((upd_ne (run xs).states a CState.cancelled b (Ne.symm hab)).trans hsb)
      hq2
  rw [hruneq, List.foldl_cons, e1, List.foldl_cons, e2, List.foldl_cons, e3,
    List.foldl_cons, e4, List.foldl_nil]
  constructor
  · show upd (upd (run xs).states a CState.cancelled) b CState.finished a =
      CState.cancelled
    rw [upd_ne _ _ _ _ hab, upd_self]
  · show upd (upd (run xs).states a CState.cancelled) b CState.finished b =
      CState.finished
    rw [upd_self]

theorem failing_command_not_blocking_witness :
    (run [Event.enq 0, Event.rel 0 false, Event.enq 1,
      Event.rel 1 true]).states 0 = CState.cancelled ∧
    (run [Event.enq 0, Event.rel 0 false, Event.enq 1,
      Event.rel 1 true]).states 1 = CState.finished :=
  failing_command_not_blocking [] 0 1 (by decide) (by decide) (by decide)
    (by decide) (by decide) (by decide) (by decide)

end CmdExec

namespace Geo

/-- C6 (amended): for every sequence of `addItem`, `replaceItem` and
`removeItem` operations, each applied under its precondition that
looked-up items exist, and with every `addItem` that supplies an explicit
name supplying one absent from both indices, the maps `name2version` and
`version2name` have equal cardinality and are exact inverses of one
another.  The original claim, without the explicit-name guard, is refuted
by re-adding an already-indexed name. -/
theorem name_version_inverse_bijection (ops : List DbOp)
    (st' : GeometryDatabase)
    (hnames : namesOk dbInit ops = true)
    (hrun : runOps dbInit ops = some st') :
    st'.version2name.length = st'.name2version.length ∧
    (∀ v n, mget st'.version2name v = some n ↔
      mget st'.name2version n = some v) := by
  have h := inv_runOps ops dbInit st' inv_dbInit hnames hrun
  exact ⟨h.2.2.1, h.2.2.2.1⟩

theorem name_version_inverse_bijection_witness :
    wSt.version2name.length = wSt.name2version.length ∧
    (∀ v n, mget wSt.version2name v = some n ↔
      mget wSt.name2version n = some v) :=
  name_version_inverse_bijection wOps wSt (by decide) (by decide)

/-- C6 counterexample: the run `cexOps` — add under explicit name 1,
replace item 1 (each lookup finding its item), then add under explicit
name 2 — leaves `version2name` with one entry but `name2version` with two,
refuting the unguarded claim. -/
theorem explicit_name_breaks_bijection_cex :
    runOps dbInit cexOps = some cexSt ∧
    cexSt.version2name.length ≠ cexSt.name2version.length := by decide

/-- C7: a memento captures exactly the six tracked maps at snapshot time
(value semantics of the embedding model the `new Map(...)` copies, so
later mutation of the live database cannot alter it), and
`restoreFromMemento` replaces each tracked map wholesale: the result's
tracked maps equal the memento's contents regardless of the pre-restore
state, so no pre-restore entry survives; in particular restoring a state's
own memento restores exactly its tracked maps. -/
theorem memento_restore_wholesale (st st' : GeometryDatabase) :
    (restoreFromMemento st' (saveToMemento st)).geometryModel =
      st.geometryModel ∧
    (restoreFromMemento st' (saveToMemento st)).version2name =
      st.version2name ∧
    (restoreFromMemento st' (saveToMemento st)).name2version =
      st.name2version ∧
    (restoreFromMemento st' (saveToMemento st)).topologyModel =
      st.topologyModel ∧
    (restoreFromMemento st' (saveToMemento st)).controlPointModel =
      st.controlPointModel ∧
    (restoreFromMemento st' (saveToMemento st)).automatics = st.automatics ∧
    saveToMemento (restoreFromMemento st' (saveToMemento st)) =
      saveToMemento st :=
  ⟨rfl, rfl, rfl, rfl, rfl, rfl, rfl⟩

/-- C8: replacing an item whose version id `fromId` is indexed under
stable name `nm` inserts the replacement under the fresh version id
`positiveCounter` — distinct from and greater than `fromId` — removes
`fromId` from `version2name`, and afterwards `version2name` maps the new
version to `nm` and `name2version` maps `nm` to the new version: the
stable name survives, the version id changes. -/
theorem replace_preserves_name_new_version (st : GeometryDatabase)
    (fromId nm : Int) (ftk fck : List String) (item : ItemData)
    (hfrom : mget st.version2name fromId = some nm)
    (hlt : fromId < st.positiveCounter) :
    ∃ st', replaceItem st fromId ftk fck item =
        some (st.positiveCounter, st') ∧
      fromId < st.positiveCounter ∧
      mget st'.version2name fromId = none ∧
      mget st'.version2name st.positiveCounter = some nm ∧
      mget st'.name2version nm = some st.positiveCounter ∧
      mget st'.geometryModel st.positiveCounter = some item.model := by
  have hfne : fromId ≠ st.positiveCounter := ne_of_lt hlt
  cases hrep : replaceItem st fromId ftk fck item with
  | none =>
    exfalso
    simp only [replaceItem, insertItem, removeItemRaw, hfrom] at hrep
    exact Option.noConfusion hrep
  | some pr =>
    obtain ⟨nm', hfrom', htoId, hv2n, hn2v, hpc, hgm, hnc⟩ :=
      replaceItem_some st fromId ftk fck item pr.1 pr.2 (by rw [hrep])
    have hnm : nm' = nm := Option.some_inj.mp (hfrom'.symm.trans hfrom)
    rw [hnm] at hv2n hn2v
    refine ⟨pr.2, ?_, hlt, ?_, ?_, ?_, ?_⟩
    · rw [← htoId]
    · rw [hv2n, mget_mset_ne _ _ _ _ hfne, mget_mdel_self]
    · rw [hv2n, mget_mset_self]
    · rw [hn2v, mget_mset_self]
    · rw [hgm, mget_mdel_ne _ _ _ (Ne.symm hfne), mget_mset_self]

theorem replace_preserves_name_new_version_witness :
    ∃ st', replaceItem gDb1 1 [] [] gItem =
        some (gDb1.positiveCounter, st') ∧
      (1 : Int) < gDb1.positiveCounter ∧
      mget st'.version2name 1 = none ∧
      mget st'.version2name gDb1.positiveCounter = some 1 ∧
      mget st'.name2version 1 = some gDb1.positiveCounter ∧
      mget st'.geometryModel gDb1.positiveCounter = some gItem.model :=
  replace_preserves_name_new_version gDb1 1 1 [] [] gItem (by decide)
    (by decide)

/-- C9 (amended): under the counter discipline (which every reachable
database satisfies), `addItem` with no explicit name assigns the current
positive counter — a positive id strictly greater than every id in the
geometry model; an explicitly supplied name is used as-is with the counter
bumped past it, so auto-assigned ids stay fresh; every temporary or
phantom object receives a negative id and leaves both name indices
untouched; and every operation preserves the discipline and never
decreases the positive counter.  The original claim, that every `addItem`
id is strictly greater than all previously assigned ids, is refuted by
explicit names. -/
theorem id_discipline (st : GeometryDatabase) (hc : Ctr st) :
    (∀ item agent, (addItem st item agent none).1 = st.positiveCounter ∧
      0 < (addItem st item agent none).1 ∧
      (∀ p ∈ st.geometryModel, p.1 < (addItem st item agent none).1)) ∧
    (∀ b, (addTemporaryItem st b).1 < 0 ∧
      (addTemporaryItem st b).2.version2name = st.version2name ∧
      (addTemporaryItem st b).2.name2version = st.name2version) ∧
    (∀ ops st', runOps st ops = some st' →
      Ctr st' ∧ st.positiveCounter ≤ st'.positiveCounter) := by
  obtain ⟨hgm, hpos, hneg⟩ := hc
  refine ⟨?_, ?_, ?_⟩
  · intro item agent
    refine ⟨rfl, ?_, ?_⟩
    · show (0 : Int) < st.positiveCounter
      linarith
    · intro p hp
      show p.1 < st.positiveCounter
      exact hgm p hp
  · intro b
    refine ⟨?_, by simp, by simp⟩
    show st.negativeCounter < 0
    linarith
  · intro ops st' hrun
    exact ctr_runOps ops st st' ⟨hgm, hpos, hneg⟩ hrun

theorem id_discipline_witness :
    (addItem dbInit gItem Agent.user none).1 = dbInit.positiveCounter ∧
    (addTemporaryItem dbInit false).1 < 0 ∧
    (addTemporaryItem dbInit false).2.version2name = dbInit.version2name :=
  ⟨((id_discipline dbInit ctr_dbInit).1 gItem Agent.user).1,
   ((id_discipline dbInit ctr_dbInit).2.1 false).1,
   ((id_discipline dbInit ctr_dbInit).2.1 false).2.1⟩

/-- C9 counterexample: after adding an item under explicit name 5 (so id 5
is an assigned real-item id), adding another item under explicit name 3
assigns id 3, which is not strictly greater than 5 — refuting
"monotonically increasing" for `addItem` with explicit names. -/
theorem explicit_name_not_monotonic_cex :
    (addItem (addItem dbInit gItem Agent.user (some 5)).2 gItem Agent.user
      (some 3)).1 = 3 ∧
    mget (addItem dbInit gItem Agent.user (some 5)).2.geometryModel 5 =
      some gItem.model ∧
    (3 : Int) < 5 := by decide

/-- C10: each of the three id lookups fails fast — returns the
`invalid precondition` error rather than an empty result — exactly when
the id is absent from its map, and returns the stored record when present
(the lookups are pure functions of the state, so they mutate nothing). -/
theorem lookup_fail_fast (st : GeometryDatabase) :
    (∀ id : Int, (mget st.geometryModel id = none →
        ∃ msg, lookupItemById st id = Except.error msg) ∧
      (∀ r, mget st.geometryModel id = some r →
        lookupItemById st id = Except.ok r)) ∧
    (∀ id : String, (mget st.topologyModel id = none →
        ∃ msg, lookupTopologyItemById st id = Except.error msg) ∧
      (∀ r, mget st.topologyModel id = some r →
        lookupTopologyItemById st id = Except.ok r)) ∧
    (∀ id : String, (mget st.controlPointModel id = none →
        ∃ msg, lookupControlPointById st id = Except.error msg) ∧
      (∀ r, mget st.controlPointModel id = some r →
        lookupControlPointById st id = Except.ok r)) := by
  refine ⟨fun id => ⟨?_, ?_⟩, fun id => ⟨?_, ?_⟩, fun id => ⟨?_, ?_⟩⟩
  · intro h
    exact ⟨_, by simp only [lookupItemById, h]; rfl⟩
  · intro r h
    simp only [lookupItemById, h]
  · intro h
    exact ⟨_, by simp only [lookupTopologyItemById, h]; rfl⟩
  · intro r h
    simp only [lookupTopologyItemById, h]
  · intro h
    exact ⟨_, by simp only [lookupControlPointById, h]; rfl⟩
  · intro r h
    simp only [lookupControlPointById, h]

theorem lookup_fail_fast_witness :
    (∃ msg, lookupItemById gDb1 99 = Except.error msg) ∧
    lookupItemById gDb1 1 = Except.ok gItem.model :=
  ⟨((lookup_fail_fast gDb1).1 99).1 (by decide),
   ((lookup_fail_fast gDb1).1 1).2 gItem.model (by decide)⟩

end Geo
